import Mathlib

/-!
Shallow embedding of the `just-dep` interpreter (Rust sources under `src/`):
`ast.rs`, `combine.rs`, `typecheck.rs`, `eval.rs`, `parse.rs`.

Modelling conventions:
* Rust `HashMap<String, T>` is modelled as an association list
  `List (String × T)`; `insert` prepends (so `lookup` sees the latest
  binding, matching `HashMap::insert` overwrite semantics) and
  `contains_key` is `(lookup _).isSome`.
* `num_bigint::BigInt` is modelled as `Int`; `usize` as `Nat` with the
  64-bit bound made explicit where the code converts (`to_usize`).
* Recursive Rust functions with no structurally decreasing argument
  (`visit_for_ordering`, `eval`/`call`, the recursive-descent parser)
  take an explicit fuel parameter; the fuel chosen by the entry points
  is proved sufficient where a claim depends on it.
-/

set_option maxHeartbeats 1000000
set_option linter.dupNamespace false

/-- Association-list lookup, modelling `HashMap::get`. -/
def lookupA {α : Type} : List (String × α) → String → Option α
  | [], _ => none
  | (k, v) :: rest, key => if k = key then some v else lookupA rest key

/-- Association-list insert, modelling `HashMap::insert` (later bindings
shadow earlier ones for `lookupA`). -/
def insertA {α : Type} (l : List (String × α)) (k : String) (v : α) : List (String × α) :=
  (k, v) :: l

/-- `HashMap::contains_key`. -/
def containsA {α : Type} (l : List (String × α)) (k : String) : Bool :=
  (lookupA l k).isSome

namespace ast

/-- `ast.rs`: expression tree.  `Int` carries a `BigInt`, modelled as `Int`. -/
inductive Expr : Type where
  | Int (n : Int)
  | Var (name : String)
  | Call (f : String) (args : List Expr)
  | Array (elems : List Expr)

mutual

/-- Decidable structural equality on `Expr` (the derived `PartialEq` of
`ast.rs`, used by `typecheck.rs` as the type-equality test). -/
def Expr.decEq : (a b : Expr) → Decidable (a = b)
  | .Int a, .Int b =>
    if h : a = b then .isTrue (by rw [h]) else .isFalse (fun hc => by cases hc; exact h rfl)
  | .Var a, .Var b =>
    if h : a = b then .isTrue (by rw [h]) else .isFalse (fun hc => by cases hc; exact h rfl)
  | .Call f xs, .Call g ys =>
    if h : f = g then
      match Expr.decEqList xs ys with
      | .isTrue h2 => .isTrue (by rw [h, h2])
      | .isFalse h2 => .isFalse (fun hc => by cases hc; exact h2 rfl)
    else .isFalse (fun hc => by cases hc; exact h rfl)
  | .Array xs, .Array ys =>
    match Expr.decEqList xs ys with
    | .isTrue h2 => .isTrue (by rw [h2])
    | .isFalse h2 => .isFalse (fun hc => by cases hc; exact h2 rfl)
  | .Int _, .Var _ => .isFalse (fun hc => Expr.noConfusion hc)
  | .Int _, .Call _ _ => .isFalse (fun hc => Expr.noConfusion hc)
  | .Int _, .Array _ => .isFalse (fun hc => Expr.noConfusion hc)
  | .Var _, .Int _ => .isFalse (fun hc => Expr.noConfusion hc)
  | .Var _, .Call _ _ => .isFalse (fun hc => Expr.noConfusion hc)
  | .Var _, .Array _ => .isFalse (fun hc => Expr.noConfusion hc)
  | .Call _ _, .Int _ => .isFalse (fun hc => Expr.noConfusion hc)
  | .Call _ _, .Var _ => .isFalse (fun hc => Expr.noConfusion hc)
  | .Call _ _, .Array _ => .isFalse (fun hc => Expr.noConfusion hc)
  | .Array _, .Int _ => .isFalse (fun hc => Expr.noConfusion hc)
  | .Array _, .Var _ => .isFalse (fun hc => Expr.noConfusion hc)
  | .Array _, .Call _ _ => .isFalse (fun hc => Expr.noConfusion hc)

/-- Elementwise decidable equality for `List Expr`. -/
def Expr.decEqList : (xs ys : List Expr) → Decidable (xs = ys)
  | [], [] => .isTrue rfl
  | [], _ :: _ => .isFalse (fun hc => List.noConfusion hc)
  | _ :: _, [] => .isFalse (fun hc => List.noConfusion hc)
  | x :: xs, y :: ys =>
    match Expr.decEq x y with
    | .isTrue h1 =>
      match Expr.decEqList xs ys with
      | .isTrue h2 => .isTrue (by rw [h1, h2])
      | .isFalse h2 => .isFalse (fun hc => by injection hc with e1 e2; exact h2 e2)
    | .isFalse h1 => .isFalse (fun hc => by injection hc with e1 e2; exact h1 e1)

end

instance : DecidableEq Expr := Expr.decEq

/-- `ast.rs`: a declared function. -/
structure Func : Type where
  args : List (String × Expr)
  ret : Expr
  body : Expr
  deriving DecidableEq

/-- `ast.rs`: a parsed script.  `funcs` models the `HashMap`. -/
structure Script : Type where
  declaration_order : List String
  funcs : List (String × Func)

end ast

namespace combine

open ast

/-- `combine.rs`: error type. -/
inductive CombineError : Type where
  | DuplicateDecl (name : String)
  | NoSuchDecl (name : String)
  | Recursion (name : String)
  deriving DecidableEq

/-- `combine.rs`: a merged declaration, tagged with its provenance. -/
structure Func : Type where
  args : List (String × Expr)
  ret : Expr
  body : Expr
  prelude : Bool
  deriving DecidableEq

/-- `combine.rs`: the merged program. -/
structure Program : Type where
  order : List String
  funcs : List (String × Func)
  deriving DecidableEq

/-- `combine.rs`: the visit marker. -/
inductive Visited : Type where
  | Visiting
  | Visited
  deriving DecidableEq

/-- `combine.rs` takes its two `Script` inputs through the ordered field
`decls` (an ordered list of name/declaration pairs). -/
structure Script : Type where
  decls : List (String × ast.Func)

mutual

/-- `combine.rs::add_dependencies`: collect every `Var` name and `Call`
target, de-duplicated, in first-occurrence order (pushed at the end). -/
def add_dependencies : Expr → List String → List String
  | .Int _, result => result
  | .Var x, result => if x ∈ result then result else result ++ [x]
  | .Call f xs, result =>
      add_dependencies_list xs (if f ∈ result then result else result ++ [f])
  | .Array xs, result => add_dependencies_list xs result

/-- The `for x in xs` loops inside `add_dependencies`. -/
def add_dependencies_list : List Expr → List String → List String
  | [], result => result
  | x :: xs, result => add_dependencies_list xs (add_dependencies x result)

end

/-- The dependency list of a single declaration: arg types in order, then
return type, then body (the body of `combine.rs::get_dependencies` once the
declaration has been found). -/
def func_deps (f : combine.Func) : List String :=
  add_dependencies f.body
    (add_dependencies f.ret
      (f.args.foldl (fun acc arg => add_dependencies arg.2 acc) []))

/-- `combine.rs::get_dependencies`. -/
def get_dependencies (funcs : List (String × combine.Func)) (name : String) :
    Except CombineError (List String) :=
  match lookupA funcs name with
  | some func => .ok (func_deps func)
  | none => .error (.NoSuchDecl name)

/-- The visit-marker map together with the growing `order`. -/
structure VState : Type where
  visits : List (String × Visited)
  order : List String

mutual

/-- `combine.rs::visit_for_ordering`, with explicit fuel.  Each nesting
level of the Rust recursion decrements the fuel once; `combine` passes
`funcs.length + 1`, which is proved sufficient below (the fuel-exhaustion
branch is unreachable from `combine`). -/
def visit_for_ordering (funcs : List (String × combine.Func)) :
    Nat → String → VState → Except CombineError VState
  | 0, name, _ => .error (.Recursion name)
  | fuel + 1, name, st =>
    match lookupA st.visits name with
    | some .Visited => .ok st
    | some .Visiting => .error (.Recursion name)
    | none =>
      match get_dependencies funcs name with
      | .error e => .error e
      | .ok deps =>
        match visit_list funcs fuel deps ⟨insertA st.visits name .Visiting, st.order⟩ with
        | .error e => .error e
        | .ok st2 =>
          .ok ⟨insertA st2.visits name .Visited, st2.order ++ [name]⟩
termination_by fuel name st => (fuel, 0)

/-- The `for dep in deps` loop inside `visit_for_ordering`. -/
def visit_list (funcs : List (String × combine.Func)) :
    Nat → List String → VState → Except CombineError VState
  | _, [], st => .ok st
  | fuel, d :: ds, st =>
    match visit_for_ordering funcs fuel d st with
    | .error e => .error e
    | .ok st' => visit_list funcs fuel ds st'
termination_by fuel ds st => (fuel, ds.length + 1)

end

/-- The first loop of `combine.rs::combine`: insert prelude then user
declarations, failing with `DuplicateDecl` on a repeated name. -/
def build_funcs : List ((String × ast.Func) × Bool) →
    List (String × combine.Func) → Except CombineError (List (String × combine.Func))
  | [], acc => .ok acc
  | ((name, decl), prel) :: rest, acc =>
    if containsA acc name then .error (.DuplicateDecl name)
    else build_funcs rest (insertA acc name ⟨decl.args, decl.ret, decl.body, prel⟩)

/-- `combine.rs::combine`. -/
def combine (prelude_script main_script : combine.Script) :
    Except CombineError Program :=
  match build_funcs
      (prelude_script.decls.map (fun d => (d, true)) ++
       main_script.decls.map (fun d => (d, false))) [] with
  | .error e => .error e
  | .ok funcs =>
    let prelude_order := prelude_script.decls.map (fun d => d.1)
    let visits0 := prelude_order.foldl (fun v n => insertA v n .Visited) []
    match visit_list funcs (funcs.length + 1)
        (main_script.decls.map (fun d => d.1)) ⟨visits0, prelude_order⟩ with
    | .error e => .error e
    | .ok st => .ok ⟨st.order, funcs⟩

end combine

namespace typecheck

open ast

/-- `typecheck.rs`: the recorded signature of a checked declaration. -/
structure CheckedFunc : Type where
  args : List (String × Expr)
  ret : Expr
  deriving DecidableEq

/-- `typecheck.rs`: error type. -/
inductive TypeError : Type where
  | ExpectedArgToBeOfTypeType (name : String) (e t : Expr)
  | DuplicateArgName (name : String)
  | CannotCoerceReturnType (t ret : Expr)
  | CannotCoerceArgumentType (f : String) (i : Nat) (x t t1 : Expr)
  | NoSuchFunc (name : String)
  | NoSuchVar (name : String)
  | WrongNumberOfArgs (f : String) (expected got : Nat)
  deriving DecidableEq

mutual

/-- `typecheck.rs::Expr::map_vars`: substitute *every* variable through the
mapping, failing with `NoSuchVar` on a variable that is not a key. -/
def map_vars : Expr → List (String × Expr) → Except TypeError Expr
  | .Int n, _ => .ok (.Int n)
  | .Var x, m =>
    match lookupA m x with
    | some y => .ok y
    | none => .error (.NoSuchVar x)
  | .Call f xs, m =>
    match map_vars_list xs m with
    | .ok ys => .ok (.Call f ys)
    | .error e => .error e
  | .Array xs, m =>
    match map_vars_list xs m with
    | .ok ys => .ok (.Array ys)
    | .error e => .error e

/-- The element loops inside `map_vars`. -/
def map_vars_list : List Expr → List (String × Expr) → Except TypeError (List Expr)
  | [], _ => .ok []
  | x :: xs, m =>
    match map_vars x m with
    | .error e => .error e
    | .ok y =>
      match map_vars_list xs m with
      | .error e => .error e
      | .ok ys => .ok (y :: ys)

end

/-- `typecheck.rs::Expr::is_label`. -/
def is_label (e : Expr) (label : String) : Bool :=
  match e with
  | .Var t => t == label
  | _ => false

/-- `typecheck.rs::Expr::is_list_type`: a call `list(t)` with one argument. -/
def is_list_type : Expr → Option Expr
  | .Call f [t] => if f = "list" then some t else none
  | _ => none

/-- `typecheck.rs::Expr::is_vector_type`.  NB the source tests the head
symbol `"list"` (with two arguments), not `"vector"`. -/
def is_vector_type : Expr → Option (Expr × Expr)
  | .Call f [t, n] => if f = "list" then some (t, n) else none
  | _ => none

/-- `typecheck.rs::Expr::is_tuple_type`: a call `tuple(ts)` with one argument. -/
def is_tuple_type : Expr → Option Expr
  | .Call f [t] => if f = "tuple" then some t else none
  | _ => none

/-- `typecheck.rs::Expr::is_explicit_array`. -/
def is_explicit_array : Expr → Option (List Expr)
  | .Array xs => some xs
  | _ => none

/-- `typecheck.rs::Expr::is_literal_integer`. -/
def is_literal_integer : Expr → Option Int
  | .Int n => some n
  | _ => none

/-- `typecheck.rs::can_prove_equal`: equality is proved only when the two
expressions are written identically. -/
def can_prove_equal (a b : Expr) (_funcs : List (String × CheckedFunc))
    (_env : List (String × Expr)) : Bool :=
  a == b

/-- `typecheck.rs::can_prove_equal_usize`. -/
def can_prove_equal_usize (a : Expr) (b : Nat) (funcs : List (String × CheckedFunc))
    (env : List (String × Expr)) : Bool :=
  can_prove_equal a (Expr.Int (Int.ofNat b)) funcs env

theorem sizeOf_of_is_list_type {e t : Expr} (h : is_list_type e = some t) :
    sizeOf t < sizeOf e := by
  cases e with
  | Int n => simp [is_list_type] at h
  | Var x => simp [is_list_type] at h
  | Array xs => simp [is_list_type] at h
  | Call f xs =>
    rcases xs with _ | ⟨t0, _ | ⟨b, r⟩⟩
    · simp [is_list_type] at h
    · by_cases hf : f = "list"
      · simp [is_list_type, hf] at h
        subst h
        simp
        omega
      · simp [is_list_type, hf] at h
    · simp [is_list_type] at h

theorem sizeOf_of_is_vector_type {e t n : Expr} (h : is_vector_type e = some (t, n)) :
    sizeOf t < sizeOf e ∧ sizeOf n < sizeOf e := by
  cases e with
  | Int m => simp [is_vector_type] at h
  | Var x => simp [is_vector_type] at h
  | Array xs => simp [is_vector_type] at h
  | Call f xs =>
    rcases xs with _ | ⟨t0, _ | ⟨n0, _ | ⟨c, r⟩⟩⟩
    · simp [is_vector_type] at h
    · simp [is_vector_type] at h
    · by_cases hf : f = "list"
      · simp [is_vector_type, hf] at h
        obtain ⟨h1, h2⟩ := h
        subst h1; subst h2
        constructor <;> (simp; omega)
      · simp [is_vector_type, hf] at h
    · simp [is_vector_type] at h

theorem sizeOf_of_is_tuple_type {e t : Expr} (h : is_tuple_type e = some t) :
    sizeOf t < sizeOf e := by
  cases e with
  | Int n => simp [is_tuple_type] at h
  | Var x => simp [is_tuple_type] at h
  | Array xs => simp [is_tuple_type] at h
  | Call f xs =>
    rcases xs with _ | ⟨t0, _ | ⟨b, r⟩⟩
    · simp [is_tuple_type] at h
    · by_cases hf : f = "tuple"
      · simp [is_tuple_type, hf] at h
        subst h
        simp
        omega
      · simp [is_tuple_type, hf] at h
    · simp [is_tuple_type] at h

theorem sizeOf_of_is_explicit_array {e : Expr} {xs : List Expr}
    (h : is_explicit_array e = some xs) : sizeOf xs < sizeOf e := by
  cases e with
  | Int n => simp [is_explicit_array] at h
  | Var x => simp [is_explicit_array] at h
  | Call f as => simp [is_explicit_array] at h
  | Array as =>
    simp [is_explicit_array] at h
    subst h
    simp

/-- `typecheck.rs::can_coerce_type`: whether `sub` is known to be coercible
to `sup`.  The structure (including the branch for a `sub` that would have
to satisfy `is_tuple_type` and `is_vector_type` at once) follows the source
line by line. -/
def can_coerce_type (sub sup : Expr) (funcs : List (String × CheckedFunc))
    (env : List (String × Expr)) : Bool :=
  if sub == sup || is_label sub "false" then true
  else if is_label sup "int" then is_label sub "uint"
  else match h1 : is_list_type sup with
  | some t1 =>
    match h2 : is_list_type sub with
    | some t0 => can_coerce_type t0 t1 funcs env
    | none =>
      match h3 : is_vector_type sub with
      | some (t0, _n) => can_coerce_type t0 t1 funcs env
      | none =>
        match h4 : is_tuple_type sub with
        | some ts_expr =>
          match h5 : is_explicit_array ts_expr with
          | some ts => ts.attach.all (fun p => can_coerce_type p.1 t1 funcs env)
          | none => false
        | none => false
  | none =>
    match h6 : is_vector_type sup with
    | some (t1, n) =>
      match h7 : is_vector_type sub with
      | some (t0, m) => can_coerce_type t0 t1 funcs env && can_prove_equal m n funcs env
      | none =>
        match h8 : is_tuple_type sub with
        | some ts_expr =>
          match h9 : is_explicit_array ts_expr with
          | some ts =>
            can_prove_equal_usize n ts.length funcs env &&
              ts.attach.all (fun p => can_coerce_type p.1 t1 funcs env)
          | none => false
        | none => false
    | none =>
      match h10 : is_tuple_type sup with
      | some ts1_expr =>
        match h11 : is_explicit_array ts1_expr with
        | some ts1 =>
          match h12 : is_tuple_type sub with
          | some ts0_expr =>
            match h13 : is_vector_type sub with
            | some (t0, n) =>
              can_prove_equal_usize n ts1.length funcs env &&
                ts1.attach.all (fun p => can_coerce_type t0 p.1 funcs env)
            | none =>
              match h14 : is_explicit_array ts0_expr with
              | some ts0 =>
                ts0.length == ts1.length &&
                  (ts0.zip ts1).attach.all
                    (fun p =>
                      match p with
                      | ⟨(t0e, t1e), _⟩ => can_coerce_type t0e t1e funcs env)
              | none => false
          | none => false
        | none => false
      | none => false
termination_by sizeOf sub + sizeOf sup
decreasing_by
  · have a1 := sizeOf_of_is_list_type h1
    have a2 := sizeOf_of_is_list_type h2
    omega
  · have a1 := sizeOf_of_is_list_type h1
    have a2 := (sizeOf_of_is_vector_type h3).1
    omega
  · have a1 := sizeOf_of_is_list_type h1
    have a2 := sizeOf_of_is_tuple_type h4
    have a3 := sizeOf_of_is_explicit_array h5
    have a4 := List.sizeOf_lt_of_mem p.2
    omega
  · have a1 := (sizeOf_of_is_vector_type h6).1
    have a2 := (sizeOf_of_is_vector_type h7).1
    omega
  · have a1 := (sizeOf_of_is_vector_type h6).1
    have a2 := sizeOf_of_is_tuple_type h8
    have a3 := sizeOf_of_is_explicit_array h9
    have a4 := List.sizeOf_lt_of_mem p.2
    omega
  · have a1 := sizeOf_of_is_tuple_type h10
    have a2 := sizeOf_of_is_explicit_array h11
    have a3 := (sizeOf_of_is_vector_type h13).1
    have a4 := List.sizeOf_lt_of_mem p.2
    omega
  · rename_i hp
    have a1 := sizeOf_of_is_tuple_type h10
    have a2 := sizeOf_of_is_explicit_array h11
    have a3 := sizeOf_of_is_tuple_type h12
    have a4 := sizeOf_of_is_explicit_array h14
    have a5 := List.of_mem_zip hp
    have a6 := List.sizeOf_lt_of_mem a5.1
    have a7 := List.sizeOf_lt_of_mem a5.2
    omega

end typecheck

namespace typecheck

open ast

/-- The `for i in 0..ts.len()` loop of the `Call` case of
`typecheck.rs::check_expr`: formals, actual expressions and their inferred
types are walked in lockstep while the substitution map grows.  The final
fall-through arm is unreachable from `check_expr` because the arity was
checked first. -/
def check_call_args (f : String) (funcs : List (String × CheckedFunc))
    (env : List (String × Expr)) :
    Nat → List (String × Expr) → List Expr → List Expr → List (String × Expr) →
    Except TypeError (List (String × Expr))
  | _, [], _, _, m => .ok m
  | i, (an, aty) :: frest, x :: xrest, t :: trest, m =>
    match map_vars aty m with
    | .error e => .error e
    | .ok t1 =>
      if can_coerce_type t t1 funcs env then
        if containsA m an then .error (.DuplicateArgName an)
        else check_call_args f funcs env (i + 1) frest xrest trest (insertA m an x)
      else .error (.CannotCoerceArgumentType f i x t t1)
  | _, _ :: _, _, _, m => .ok m

mutual

/-- `typecheck.rs::check_expr`. -/
def check_expr (funcs : List (String × CheckedFunc)) (env : List (String × Expr)) :
    Expr → Except TypeError Expr
  | .Int n => if n < 0 then .ok (.Var "int") else .ok (.Var "uint")
  | .Var x =>
    match lookupA env x with
    | some t => .ok t
    | none => .error (.NoSuchVar x)
  | .Call f xs =>
    match lookupA funcs f with
    | some cf =>
      if cf.args.length = xs.length then
        match check_exprs funcs env xs with
        | .error e => .error e
        | .ok ts =>
          match check_call_args f funcs env 0 cf.args xs ts [] with
          | .error e => .error e
          | .ok m => map_vars cf.ret m
      else .error (.WrongNumberOfArgs f cf.args.length xs.length)
    | none => .error (.NoSuchFunc f)
  | .Array xs =>
    match check_exprs funcs env xs with
    | .error e => .error e
    | .ok ts => .ok (.Call "tuple" [.Array ts])

/-- The `xs.iter().map(check_expr).collect::<Result<Vec<_>,_>>()` step. -/
def check_exprs (funcs : List (String × CheckedFunc)) (env : List (String × Expr)) :
    List Expr → Except TypeError (List Expr)
  | [] => .ok []
  | x :: xs =>
    match check_expr funcs env x with
    | .error e => .error e
    | .ok t =>
      match check_exprs funcs env xs with
      | .error e => .error e
      | .ok ts => .ok (t :: ts)

end

/-- `typecheck.rs::check_arg_is_of_type_type`. -/
def check_arg_is_of_type_type (name : String) (expr : Expr)
    (funcs : List (String × CheckedFunc)) (env : List (String × Expr)) :
    Except TypeError Unit :=
  match check_expr funcs env expr with
  | .error e => .error e
  | .ok t =>
    if can_coerce_type t (Expr.Var "type") funcs env then .ok ()
    else .error (.ExpectedArgToBeOfTypeType name expr t)

/-- The argument loop of `typecheck.rs::check_func`. -/
def check_func_args (funcs : List (String × CheckedFunc)) :
    List (String × Expr) → List (String × Expr) → Except TypeError (List (String × Expr))
  | [], env => .ok env
  | (an, aty) :: rest, env =>
    match check_arg_is_of_type_type an aty funcs env with
    | .error e => .error e
    | .ok _ =>
      if containsA env an then .error (.DuplicateArgName an)
      else check_func_args funcs rest (insertA env an aty)

/-- `typecheck.rs::check_func`. -/
def check_func (func : ast.Func) (funcs : List (String × CheckedFunc)) :
    Except TypeError CheckedFunc :=
  match check_func_args funcs func.args [] with
  | .error e => .error e
  | .ok env =>
    match check_expr funcs env func.body with
    | .error e => .error e
    | .ok t =>
      if can_coerce_type t func.ret funcs env then .ok ⟨func.args, func.ret⟩
      else .error (.CannotCoerceReturnType t func.ret)

end typecheck

namespace eval

open ast

/-- `eval.rs`: the runtime `Type` classification (renamed `Ty`: `Type` is a
Lean keyword; its `Type` variant is renamed `Typ` likewise). -/
inductive Ty : Type where
  | Bool
  | Int
  | Uint
  | String
  | List (t : Ty)
  | Vector (t : Ty) (n : Nat)
  | Tuple (ts : List Ty)
  | Typ

/-- `eval.rs`: runtime values (the `Type` variant is renamed `Typ`). -/
inductive Val : Type where
  | Bool (b : Bool)
  | Int (n : Int)
  | String (s : String)
  | Array (xs : List Val)
  | Typ (t : Ty)

/-- `eval.rs`: evaluation errors. -/
inductive EvalError : Type where
  | WrongNumberOfArgs (name : String) (expected got : Nat)
  | NoSuchVar (name : String)
  | NoSuchFunc (name : String)
  | ArgTypeEvalError (name : String) (e : EvalError)
  | ArgTypeNotType (name : String)
  | ArgIsWrongType (name : String) (t : Ty) (v : Val)
  | RetTypeEvalError (e : EvalError)
  | RetTypeNotType
  | ResultIsWrongType
  | Overflow
  | UnexpectedError

/-- `eval.rs::Val::unwrap_usize`: `BigInt::to_usize` succeeds exactly on
integers representable in a 64-bit `usize`. -/
def unwrap_usize : Val → Except EvalError Nat
  | .Int i => if 0 ≤ i ∧ i < 2 ^ 64 then .ok i.toNat else .error .Overflow
  | _ => .error .UnexpectedError

/-- `eval.rs::Val::unwrap_type`. -/
def unwrap_type : Val → Except EvalError Ty
  | .Typ t => .ok t
  | _ => .error .UnexpectedError

/-- `eval.rs::Val::unwrap_array`. -/
def unwrap_array : Val → Except EvalError (List Val)
  | .Array xs => .ok xs
  | _ => .error .UnexpectedError

/-- The `.iter().map(Val::unwrap_type).collect()` step of
`unwrap_array_of_types`. -/
def unwrap_types_list : List Val → Except EvalError (List Ty)
  | [] => .ok []
  | x :: xs =>
    match unwrap_type x with
    | .error e => .error e
    | .ok t =>
      match unwrap_types_list xs with
      | .error e => .error e
      | .ok ts => .ok (t :: ts)

/-- `eval.rs::Val::unwrap_array_of_types`. -/
def unwrap_array_of_types (v : Val) : Except EvalError (List Ty) :=
  match unwrap_array v with
  | .error e => .error e
  | .ok xs => unwrap_types_list xs

/-- `eval.rs::Script::lookup_value`: the fixed builtin names are consulted
*before* the local environment. -/
def lookup_value (_s : Script) (name : String) (env : List (String × Val)) :
    Except EvalError Val :=
  if name = "true" then .ok (.Bool true)
  else if name = "false" then .ok (.Bool false)
  else if name = "bool" then .ok (.Typ .Bool)
  else if name = "int" then .ok (.Typ .Int)
  else if name = "uint" then .ok (.Typ .Uint)
  else if name = "string" then .ok (.Typ .String)
  else if name = "type" then .ok (.Typ .Typ)
  else
    match lookupA env name with
    | none => .error (.NoSuchVar name)
    | some x => .ok x

/-- `eval.rs::Script::lookup_fn`: the builtin type formers get synthetic
signatures (with a dummy body); everything else is looked up in the map. -/
def lookup_fn (s : Script) (name : String) : Except EvalError ast.Func :=
  if name = "list" then
    .ok ⟨[("t", .Var "type")], .Var "type", .Var ""⟩
  else if name = "vector" then
    .ok ⟨[("t", .Var "type"), ("n", .Var "uint")], .Var "type", .Var ""⟩
  else if name = "tuple" then
    .ok ⟨[("ts", .Call "list" [.Var "type"])], .Var "type", .Var ""⟩
  else
    match lookupA s.funcs name with
    | none => .error (.NoSuchFunc name)
    | some f => .ok f

mutual

/-- `eval.rs::Script::has_type`. -/
def has_type (s : Script) : Val → Ty → Bool
  | .Bool _, .Bool => true
  | .Int _, .Int => true
  | .String _, .String => true
  | .Typ _, .Typ => true
  | .Int n, .Uint => decide (0 ≤ n)
  | .Array xs, .List t => has_type_all s xs t
  | .Array xs, .Vector t n => xs.length == n && has_type_all s xs t
  | .Array xs, .Tuple ts => xs.length == ts.length && has_type_zip s xs ts
  | _, _ => false

/-- `xs.iter().all(|x| has_type(x, t))`. -/
def has_type_all (s : Script) : List Val → Ty → Bool
  | [], _ => true
  | x :: xs, t => has_type s x t && has_type_all s xs t

/-- `xs.iter().zip(ts).all(|(x,t)| has_type(x, t))`. -/
def has_type_zip (s : Script) : List Val → List Ty → Bool
  | [], _ => true
  | _ :: _, [] => true
  | x :: xs, t :: ts => has_type s x t && has_type_zip s xs ts

end

mutual

/-- `eval.rs::Script::call`, with fuel (the Rust recursion through
`eval` has no decreasing argument). -/
def call (s : Script) : Nat → String → List Val → Except EvalError Val
  | 0, _, _ => .error .UnexpectedError
  | fuel + 1, name, args =>
    match lookup_fn s name with
    | .error e => .error e
    | .ok func =>
      if func.args.length ≠ args.length then
        .error (.WrongNumberOfArgs name func.args.length args.length)
      else
        match bind_args s fuel func.args args [] with
        | .error e => .error e
        | .ok env =>
          match eval s fuel func.ret env with
          | .ok (.Typ ret_type) =>
            match call_result s fuel name func env with
            | .error e => .error e
            | .ok result =>
              if has_type s result ret_type then .ok result
              else .error .ResultIsWrongType
          | .ok _ => .error .RetTypeNotType
          | .error e => .error (.RetTypeEvalError e)
termination_by fuel name args => (fuel, 0)

/-- The `for ((name, typ_expr), value) in func.args.iter().zip(args)` loop
of `call`: evaluate each declared argument type in the growing environment,
check the actual against it, and bind it. -/
def bind_args (s : Script) :
    Nat → List (String × Expr) → List Val → List (String × Val) →
    Except EvalError (List (String × Val))
  | _, [], _, env => .ok env
  | fuel, (an, typ_expr) :: frest, value :: vrest, env =>
    match eval s fuel typ_expr env with
    | .ok (.Typ t) =>
      if has_type s value t then bind_args s fuel frest vrest (insertA env an value)
      else .error (.ArgIsWrongType an t value)
    | .ok _ => .error (.ArgTypeNotType an)
    | .error e => .error (.ArgTypeEvalError an e)
  | _, _ :: _, [], env => .ok env
termination_by fuel frest vrest env => (fuel, frest.length + 1)

/-- The `match name` over `"list"`/`"vector"`/`"tuple"` at the end of
`call`; any other name evaluates the body.  The `env.get(_).unwrap()`
calls cannot fail after `bind_args` bound every formal; the `none` arms
mirror a `panic` with `UnexpectedError`. -/
def call_result (s : Script) :
    Nat → String → ast.Func → List (String × Val) → Except EvalError Val
  | fuel, name, func, env =>
    if name = "list" then
      match lookupA env "t" with
      | some tv =>
        match unwrap_type tv with
        | .ok t => .ok (.Typ (.List t))
        | .error e => .error e
      | none => .error .UnexpectedError
    else if name = "vector" then
      match lookupA env "t", lookupA env "n" with
      | some tv, some nv =>
        match unwrap_type tv with
        | .error e => .error e
        | .ok t =>
          match unwrap_usize nv with
          | .error e => .error e
          | .ok n => .ok (.Typ (.Vector t n))
      | _, _ => .error .UnexpectedError
    else if name = "tuple" then
      match lookupA env "ts" with
      | some tsv =>
        match unwrap_array_of_types tsv with
        | .error e => .error e
        | .ok ts => .ok (.Typ (.Tuple ts))
      | none => .error .UnexpectedError
    else eval s fuel func.body env
termination_by fuel name func env => (fuel, 1)

/-- `eval.rs::Script::eval`, with fuel.  The `Expr::Array` arm is absent
from the `match` in the source (`eval.rs` lines 172-184, non-exhaustive
over `ast::Expr`); it is modelled from the spec: evaluate the elements
strictly, left to right, into a `Val::Array`. -/
def eval (s : Script) : Nat → Expr → List (String × Val) → Except EvalError Val
  | 0, _, _ => .error .UnexpectedError
  | _ + 1, .Int n, _ => .ok (.Int n)
  | _ + 1, .Var x, env => lookup_value s x env
  | fuel + 1, .Call f args, env =>
    match eval_args s fuel args env with
    | .error e => .error e
    | .ok arg_vals => call s fuel f arg_vals
  | fuel + 1, .Array xs, env =>
    match eval_args s fuel xs env with
    | .error e => .error e
    | .ok vals => .ok (.Array vals)
termination_by fuel e env => (fuel, 0)

/-- The `for arg in args { arg_vals.push(eval(arg)?) }` loop of `eval`. -/
def eval_args (s : Script) :
    Nat → List Expr → List (String × Val) → Except EvalError (List Val)
  | _, [], _ => .ok []
  | fuel, x :: xs, env =>
    match eval s fuel x env with
    | .error e => .error e
    | .ok v =>
      match eval_args s fuel xs env with
      | .error e => .error e
      | .ok vs => .ok (v :: vs)
termination_by fuel xs env => (fuel, xs.length + 1)

end

/-- `eval.rs::Script::eval_main`: wrap the string arguments and call
`main`. -/
def eval_main (s : Script) (fuel : Nat) (args : List String) : Except EvalError Val :=
  call s fuel "main" [Val.Array (args.map (fun a => Val.String a))]

end eval

namespace parse

open ast

/-- `parse.rs::Err`: position (characters remaining) and message. -/
structure PErr : Type where
  remaining : Nat
  message : String
  deriving DecidableEq

/-- `nom::Err` as used here: recoverable `Error` vs fatal `Failure`. -/
inductive NErr : Type where
  | Error (e : PErr)
  | Failure (e : PErr)
  deriving DecidableEq

/-- `nom::IResult`: remaining input and parsed value, or an error. -/
abbrev IResult (α : Type) : Type := Except NErr (List Char × α)

/-- `ParseError::from_error_kind`: remaining length plus the kind's debug
name. -/
def from_error_kind (input : List Char) (kind : String) : PErr :=
  ⟨input.length, kind⟩

/-- `ParseError::append`. -/
def append_err (input : List Char) (kind : String) (other : PErr) : PErr :=
  if other.remaining ≤ input.length then other else from_error_kind input kind

/-- `ParseError::or`: keep whichever error consumed more, joining messages
on a tie. -/
def or_err (self other : PErr) : PErr :=
  if other.remaining = self.remaining then
    ⟨self.remaining, self.message ++ " | " ++ other.message⟩
  else if other.remaining < self.remaining then other
  else self

/-- `Err::decorate`. -/
def decorate_err (e : PErr) (extra : String) : PErr :=
  ⟨e.remaining, e.message ++ " " ++ extra⟩

/-- `parse.rs::decorate`. -/
def decorate : NErr → String → NErr
  | .Error e, x => .Error (decorate_err e x)
  | .Failure e, x => .Failure (decorate_err e x)

/-- `FromExternalError::from_external_error`. -/
def from_external_error (input : List Char) (e : String) : PErr :=
  ⟨input.length, e⟩

/-- `nom::multispace0`'s character class. -/
def is_multispace (c : Char) : Bool :=
  c = ' ' || c = '\t' || c = '\r' || c = '\n'

/-- `parse.rs::whitespace` (`multispace0`, never fails). -/
def whitespace (input : List Char) : IResult Unit :=
  .ok (input.dropWhile is_multispace, ())

/-- `parse.rs::tagv` (`nom::tag`). -/
def tagv (t : String) (input : List Char) : IResult Unit :=
  if t.toList.isPrefixOf input then .ok (input.drop t.toList.length, ())
  else .error (.Error (from_error_kind input "Tag"))

/-- `parse.rs::symbol`: the tag, trailing whitespace, errors decorated with
the expectation. -/
def symbol (sym : String) (input : List Char) : IResult Unit :=
  match tagv sym input with
  | .error e => .error (decorate e ("Expected: \"" ++ sym ++ "\""))
  | .ok (i, _) =>
    match whitespace i with
    | .error e => .error (decorate e ("Expected: \"" ++ sym ++ "\""))
    | .ok (i2, _) => .ok (i2, ())

/-- `parse.rs::word`: `take_while1` over ASCII alphanumerics and `_`, then
whitespace. -/
def word (input : List Char) : IResult (List Char) :=
  let tok := input.takeWhile (fun c => c.isAlphanum || c = '_')
  if tok.length = 0 then .error (.Error (from_error_kind input "TakeWhile1"))
  else
    match whitespace (input.drop tok.length) with
    | .error e => .error e
    | .ok (i2, _) => .ok (i2, tok)

/-- `parse.rs::word_owned`. -/
def word_owned (input : List Char) : IResult String :=
  match word input with
  | .ok (i, w) => .ok (i, String.mk w)
  | .error e => .error (decorate e "word")

/-- The numeral value of a digit string (`s.parse::<BigInt>()`). -/
def digits_to_nat (ds : List Char) : Nat :=
  ds.foldl (fun acc c => acc * 10 + (c.toNat - '0'.toNat)) 0

/-- `parse.rs::number`: `digit1` then whitespace, mapped to `Expr::Int`. -/
def number (input : List Char) : IResult Expr :=
  let ds := input.takeWhile (fun c => c.isDigit)
  if ds.length = 0 then .error (.Error (from_error_kind input "Digit"))
  else
    match whitespace (input.drop ds.length) with
    | .error e => .error e
    | .ok (i2, _) => .ok (i2, Expr.Int (Int.ofNat (digits_to_nat ds)))

/-- `parse.rs::var`. -/
def var (input : List Char) : IResult Expr :=
  match word_owned input with
  | .ok (i, w) => .ok (i, Expr.Var w)
  | .error e => .error e

/-- `nom::branch::alt` over two alternatives: a recoverable error tries the
next branch, errors are merged with `or`. -/
def alt2 {α : Type} (p q : List Char → IResult α) (input : List Char) : IResult α :=
  match p input with
  | .error (.Error e1) =>
    match q input with
    | .error (.Error e2) => .error (.Error (or_err e1 e2))
    | r => r
  | r => r

/-- `nom::branch::alt` over three alternatives. -/
def alt3 {α : Type} (p q r : List Char → IResult α) (input : List Char) : IResult α :=
  match p input with
  | .error (.Error e1) =>
    match q input with
    | .error (.Error e2) =>
      match r input with
      | .error (.Error e3) => .error (.Error (or_err (or_err e1 e2) e3))
      | rr => rr
    | rr => rr
  | rr => rr

/-- The loop of `nom::multi::many1`.  Fuelled: every iteration consumes at
least one character (a non-consuming success is an error, as in nom), so
the fuel passed by `many1` cannot run out. -/
def many1_go {α : Type} (p : List Char → IResult α) :
    Nat → List Char → List α → IResult (List α)
  | 0, input, _ => .error (.Error (from_error_kind input "Many1"))
  | fuel + 1, input, acc =>
    match p input with
    | .error (.Error _) => .ok (input, acc.reverse)
    | .error (.Failure e) => .error (.Failure e)
    | .ok (i1, o) =>
      if i1.length = input.length then .error (.Error (from_error_kind input "Many1"))
      else many1_go p fuel i1 (o :: acc)

/-- `nom::multi::many1`. -/
def many1 {α : Type} (p : List Char → IResult α) (input : List Char) :
    IResult (List α) :=
  match p input with
  | .error (.Error e) => .error (.Error (append_err input "Many1" e))
  | .error (.Failure e) => .error (.Failure e)
  | .ok (i1, o) =>
    if i1.length = input.length then .error (.Error (from_error_kind input "Many1"))
    else many1_go p (i1.length + 1) i1 [o]

/-- `nom::combinator::map_res` with a `String`-valued external error. -/
def map_res {α β : Type} (p : List Char → IResult α) (f : α → Except String β)
    (input : List Char) : IResult β :=
  match p input with
  | .error e => .error e
  | .ok (i, o) =>
    match f o with
    | .ok o2 => .ok (i, o2)
    | .error e => .error (.Error (from_external_error input e))

/-- `nom::combinator::all_consuming`. -/
def all_consuming {α : Type} (p : List Char → IResult α) (input : List Char) :
    IResult α :=
  match p input with
  | .error e => .error e
  | .ok (i, o) => if i.length = 0 then .ok (i, o) else .error (.Error (from_error_kind i "Eof"))

/-- `nom::sequence::preceded`. -/
def preceded {α β : Type} (p : List Char → IResult α) (q : List Char → IResult β)
    (input : List Char) : IResult β :=
  match p input with
  | .error e => .error e
  | .ok (i, _) => q i

/-- `nom::sequence::delimited`. -/
def delimited {α β γ : Type} (p : List Char → IResult α) (q : List Char → IResult β)
    (r : List Char → IResult γ) (input : List Char) : IResult β :=
  match p input with
  | .error e => .error e
  | .ok (i, _) =>
    match q i with
    | .error e => .error e
    | .ok (i2, o) =>
      match r i2 with
      | .error e => .error e
      | .ok (i3, _) => .ok (i3, o)

mutual

/-- `parse.rs::expr`, fuelled (the grammar recursion has no structural
decrease; `parse` passes ample fuel, and no claim depends on the
fuel-exhaustion branch, which surfaces as an ordinary error). -/
def expr (fuel : Nat) (input : List Char) : IResult Expr :=
  match fuel with
  | 0 => .error (.Error (from_error_kind input "Fuel"))
  | fuel + 1 => alt2 (word_with_args fuel) (tight_expr fuel) input

/-- `parse.rs::tight_expr`. -/
def tight_expr (fuel : Nat) (input : List Char) : IResult Expr :=
  match fuel with
  | 0 => .error (.Error (from_error_kind input "Fuel"))
  | fuel + 1 => alt3 number var (delimited (symbol "(") (expr fuel) (symbol ")")) input

/-- `parse.rs::word_with_args`. -/
def word_with_args (fuel : Nat) (input : List Char) : IResult Expr :=
  match fuel with
  | 0 => .error (.Error (from_error_kind input "Fuel"))
  | fuel + 1 =>
    match word_owned input with
    | .error e => .error e
    | .ok (i, name) =>
      match many1 (tight_expr fuel) i with
      | .error e => .error e
      | .ok (i2, params) => .ok (i2, Expr.Call name params)

end

/-- `parse.rs::arg`: `( name : type-expr )`. -/
def arg (fuel : Nat) (input : List Char) : IResult (String × Expr) :=
  match symbol "(" input with
  | .error e => .error e
  | .ok (i1, _) =>
    match word_owned i1 with
    | .error e => .error e
    | .ok (i2, name) =>
      match symbol ":" i2 with
      | .error e => .error e
      | .ok (i3, _) =>
        match expr fuel i3 with
        | .error e => .error e
        | .ok (i4, typ) =>
          match symbol ")" i4 with
          | .error e => .error e
          | .ok (i5, _) => .ok (i5, (name, typ))

/-- `parse.rs::func`: name, one or more arguments (duplicate argument names
are a fatal `Failure`), `: ret = body ;`. -/
def func (fuel : Nat) (input : List Char) : IResult (String × ast.Func) :=
  match word_owned input with
  | .error e => .error e
  | .ok (i1, name) =>
    match many1 (arg fuel) i1 with
    | .error e => .error e
    | .ok (i2, args) =>
      if (args.map Prod.fst).dedup.length < args.length then
        .error (.Failure ⟨i2.length, "Duplicate argument name"⟩)
      else
        match symbol ":" i2 with
        | .error e => .error e
        | .ok (i3, _) =>
          match expr fuel i3 with
          | .error e => .error e
          | .ok (i4, ret) =>
            match symbol "=" i4 with
            | .error e => .error e
            | .ok (i5, _) =>
              match expr fuel i5 with
              | .error e => .error e
              | .ok (i6, body) =>
                match symbol ";" i6 with
                | .error e => .error e
                | .ok (i7, _) => .ok (i7, (name, ⟨args, ret, body⟩))

/-- The map-building loop of `parse.rs::funcs_to_script`. -/
def build_script_funcs : List (String × ast.Func) → List (String × ast.Func) →
    Except String (List (String × ast.Func))
  | [], funcs => .ok funcs
  | (name, func) :: rest, funcs =>
    if containsA funcs name then .error ("Duplicate function: " ++ name)
    else build_script_funcs rest (insertA funcs name func)

/-- `parse.rs::funcs_to_script`.  `func_list.drain(..)` empties the vector,
and `declaration_order` is then computed from the emptied vector. -/
def funcs_to_script (func_list : List (String × ast.Func)) : Except String ast.Script :=
  match build_script_funcs func_list [] with
  | .error e => .error e
  | .ok funcs =>
    let drained : List (String × ast.Func) := []
    .ok ⟨drained.map (fun x => x.1), funcs⟩

/-- `parse.rs::script`. -/
def script (fuel : Nat) (input : List Char) : IResult ast.Script :=
  map_res (many1 (func fuel)) funcs_to_script input

/-- `parse.rs::ParseErr`. -/
structure ParseErr : Type where
  text : String
  remaining : Nat
  message : String
  deriving DecidableEq

/-- `parse.rs::parse`: `all_consuming(preceded(whitespace, script))`,
converting a nom error into a `ParseErr` (`Finish`). -/
def parse (input : String) : Except ParseErr ast.Script :=
  let cs := input.toList
  match all_consuming (preceded whitespace (script (cs.length * 2 + 8))) cs with
  | .ok (_, s) => .ok s
  | .error (.Error e) => .error ⟨input, e.remaining, e.message⟩
  | .error (.Failure e) => .error ⟨input, e.remaining, e.message⟩

end parse

namespace typecheck

open ast

mutual

/-- The list of `Var` occurrences of an expression (the names `map_vars`
must resolve), in traversal order. -/
def expr_vars : Expr → List String
  | .Int _ => []
  | .Var x => [x]
  | .Call _ xs => expr_vars_list xs
  | .Array xs => expr_vars_list xs

/-- `expr_vars` over a list of expressions. -/
def expr_vars_list : List Expr → List String
  | [] => []
  | x :: xs => expr_vars x ++ expr_vars_list xs

end

mutual

theorem map_vars_nil_ok (e : Expr) (h : expr_vars e = []) :
    ∃ y, map_vars e [] = Except.ok y := by
  match e with
  | .Int n => exact ⟨.Int n, rfl⟩
  | .Var x => simp [expr_vars] at h
  | .Call f xs =>
    obtain ⟨ys, hy⟩ := map_vars_list_nil_ok xs (by simpa [expr_vars] using h)
    exact ⟨.Call f ys, by simp [map_vars, hy]⟩
  | .Array xs =>
    obtain ⟨ys, hy⟩ := map_vars_list_nil_ok xs (by simpa [expr_vars] using h)
    exact ⟨.Array ys, by simp [map_vars, hy]⟩

theorem map_vars_list_nil_ok (xs : List Expr) (h : expr_vars_list xs = []) :
    ∃ ys, map_vars_list xs [] = Except.ok ys := by
  match xs with
  | [] => exact ⟨[], rfl⟩
  | x :: rest =>
    rw [expr_vars_list] at h
    obtain ⟨hx, hrest⟩ := List.append_eq_nil.mp h
    obtain ⟨y, hy⟩ := map_vars_nil_ok x hx
    obtain ⟨ys, hys⟩ := map_vars_list_nil_ok rest hrest
    exact ⟨y :: ys, by simp [map_vars_list, hy, hys]⟩

end

mutual

theorem map_vars_nil_error (e : Expr) (h : expr_vars e ≠ []) :
    ∃ w, w ∈ expr_vars e ∧ map_vars e [] = Except.error (.NoSuchVar w) := by
  match e with
  | .Int n => simp [expr_vars] at h
  | .Var x => exact ⟨x, by simp [expr_vars], by simp [map_vars, lookupA]⟩
  | .Call f xs =>
    obtain ⟨w, hw, he⟩ := map_vars_list_nil_error xs (by simpa [expr_vars] using h)
    exact ⟨w, by simpa [expr_vars] using hw, by simp [map_vars, he]⟩
  | .Array xs =>
    obtain ⟨w, hw, he⟩ := map_vars_list_nil_error xs (by simpa [expr_vars] using h)
    exact ⟨w, by simpa [expr_vars] using hw, by simp [map_vars, he]⟩

theorem map_vars_list_nil_error (xs : List Expr) (h : expr_vars_list xs ≠ []) :
    ∃ w, w ∈ expr_vars_list xs ∧ map_vars_list xs [] = Except.error (.NoSuchVar w) := by
  match xs with
  | [] => simp [expr_vars_list] at h
  | x :: rest =>
    by_cases hx : expr_vars x = []
    · obtain ⟨y, hy⟩ := map_vars_nil_ok x hx
      obtain ⟨w, hw, he⟩ := map_vars_list_nil_error rest
        (by simpa [expr_vars_list, hx] using h)
      exact ⟨w, by simp [expr_vars_list, hw], by simp [map_vars_list, hy, he]⟩
    · obtain ⟨w, hw, he⟩ := map_vars_nil_error x hx
      exact ⟨w, by simp [expr_vars_list, hw], by simp [map_vars_list, he]⟩

end

/-- Inversion: a successful `check_exprs` on a cons starts with a
successful `check_expr`. -/
theorem check_exprs_cons_ok {funcs : List (String × CheckedFunc)}
    {env : List (String × Expr)} {x : Expr} {xs : List Expr} {ts : List Expr}
    (h : check_exprs funcs env (x :: xs) = .ok ts) :
    ∃ t trest, ts = t :: trest ∧ check_expr funcs env x = .ok t ∧
      check_exprs funcs env xs = .ok trest := by
  rw [check_exprs] at h
  rcases hx : check_expr funcs env x with e | t
  · rw [hx] at h; exact absurd h (by simp)
  · rw [hx] at h
    rcases hxs : check_exprs funcs env xs with e | trest
    · rw [hxs] at h; exact absurd h (by simp)
    · rw [hxs] at h
      simp at h
      exact ⟨t, trest, h.symm, rfl, rfl⟩

end typecheck

open ast

/-- C1 scenario: the prelude script declaring `id(t:type)(x:t):t = x;`. -/
def ex1_prelude : combine.Script :=
  ⟨[("id", ⟨[("t", .Var "type"), ("x", .Var "t")], .Var "t", .Var "x"⟩)]⟩

/-- C1 scenario: the user script
`five : uint = id(uint)(5); main(args: list(string)) : uint = five;`. -/
def ex1_user : combine.Script :=
  ⟨[("five", ⟨[], .Var "uint", .Call "id" [.Var "uint", .Int 5]⟩),
    ("main", ⟨[("args", .Call "list" [.Var "string"])], .Var "uint", .Var "five"⟩)]⟩

/-- The signature table holding `id`, as the checker would record it. -/
def ex2_funcs : List (String × typecheck.CheckedFunc) :=
  [("id", ⟨[("t", .Var "type"), ("x", .Var "t")], .Var "t"⟩)]

/-- The builtin names resolved by `eval.rs::lookup_value` before the local
environment is consulted. -/
def builtin_values : List String :=
  ["true", "false", "bool", "int", "uint", "string", "type"]

/-- A script with a nullary declaration `five : uint = 5`. -/
def ex3_script : ast.Script := ⟨[], [("five", ⟨[], .Var "uint", .Int 5⟩)]⟩

/-- A script with an ordinary declaration `f(x:uint):uint = x`. -/
def ex4_script : ast.Script := ⟨[], [("f", ⟨[("x", .Var "uint")], .Var "uint", .Var "x"⟩)]⟩

/-- C1: the scenario fails at the very first stage: `combine` returns an
error (so type-checking and evaluation are never reached and no value `5`
is produced), refuting the claimed end-to-end success. -/
theorem c1_counterexample : (combine.combine ex1_prelude ex1_user).toOption = none := by
  simp [Except.toOption, ex1_prelude, ex1_user, combine.combine, combine.build_funcs, combine.visit_list,
    combine.visit_for_ordering, combine.get_dependencies, combine.func_deps,
    combine.add_dependencies, combine.add_dependencies_list, lookupA, insertA, containsA]

/-- C1 (amended): on the scenario's two scripts, `combine` fails with
`NoSuchDecl("uint")`: the combiner resolves every `Var` occurrence —
including the builtin type name `uint` — against the merged declaration
map, and the scenario's prelude declares only `id`.  The pipeline never
reaches `type_check` or `eval_main`. -/
theorem c1_scenario_combine_fails :
    combine.combine ex1_prelude ex1_user = .error (.NoSuchDecl "uint") := by
  simp [ex1_prelude, ex1_user, combine.combine, combine.build_funcs, combine.visit_list,
    combine.visit_for_ordering, combine.get_dependencies, combine.func_deps,
    combine.add_dependencies, combine.add_dependencies_list, lookupA, insertA, containsA]

/-- C2: counterexample — type-checking the call `id(0)(1)` (with `id`'s
recorded signature `id(t:type)(x:t):t`) fails with `NoSuchVar("type")`:
the substitution step `map_vars` rejects the non-formal name `type` in the
first formal's declared type instead of leaving it unchanged. -/
theorem c2_counterexample :
    typecheck.check_expr ex2_funcs [] (.Call "id" [.Int 0, .Int 1])
      = .error (.NoSuchVar "type") := rfl

/-- C2 (amended): when type-checking `Call(f, actuals)`, the substitution
applied to a formal's declared type maps only the formals bound so far and
fails with `NoSuchVar` on any other variable; in particular, whenever the
first formal's declared type mentions any variable at all (e.g. a prelude
type name such as `type` or `uint`, never a bound formal at that point),
the whole call fails with `NoSuchVar` naming such a variable. -/
theorem c2_substitution_fails
    (funcs : List (String × typecheck.CheckedFunc)) (env : List (String × Expr))
    (f : String) (cf : typecheck.CheckedFunc) (x : Expr) (xrest : List Expr)
    (ts : List Expr) (an : String) (aty : Expr) (frest : List (String × Expr))
    (hf : lookupA funcs f = some cf)
    (hargs : cf.args = (an, aty) :: frest)
    (hlen : cf.args.length = (x :: xrest).length)
    (hts : typecheck.check_exprs funcs env (x :: xrest) = .ok ts)
    (hv : typecheck.expr_vars aty ≠ []) :
    ∃ w, w ∈ typecheck.expr_vars aty ∧
      typecheck.check_expr funcs env (.Call f (x :: xrest)) = .error (.NoSuchVar w) := by
  obtain ⟨w, hw, he⟩ := typecheck.map_vars_nil_error aty hv
  obtain ⟨t, trest, hts_eq, hx, hxs⟩ := typecheck.check_exprs_cons_ok hts
  subst hts_eq
  have hlen2 : frest.length = xrest.length := by
    rw [hargs] at hlen
    simpa using hlen
  exact ⟨w, hw, by
    simp [typecheck.check_expr, hf, hlen, hlen2, hts, hargs, typecheck.check_call_args, he]⟩

/-- C2: witness — the hypotheses of `c2_substitution_fails` hold at the
concrete call `id(0)(1)`, whose check indeed does not succeed. -/
theorem c2_witness :
    (typecheck.check_expr ex2_funcs [] (.Call "id" [.Int 0, .Int 1])).isOk = false := by
  obtain ⟨w, hw, he⟩ := c2_substitution_fails ex2_funcs [] "id"
    ⟨[("t", .Var "type"), ("x", .Var "t")], .Var "t"⟩ (.Int 0) [.Int 1]
    [.Var "uint", .Var "uint"] "t" (.Var "type") [("x", .Var "t")]
    rfl rfl rfl rfl (by simp [typecheck.expr_vars])
  rw [he]
  rfl

/-- C3: counterexample — with a nullary declaration `five : uint = 5` in
the script, evaluating `Var("five")` in an empty local environment fails
with `NoSuchVar("five")` (there is no memo cache and no fallback to
calling the nullary declaration), even though `call("five", [])` itself
would produce `5`; moreover a builtin name shadows a same-named local
binding, not the other way round. -/
theorem c3_counterexample :
    eval.eval ex3_script 10 (.Var "five") [] = .error (.NoSuchVar "five") ∧
    eval.call ex3_script 10 "five" [] = .ok (.Int 5) ∧
    eval.eval ex3_script 10 (.Var "uint") [("uint", .Int 9)] = .ok (.Typ .Uint) := by
  refine ⟨?_, ?_, ?_⟩
  · simp [ex3_script, eval.eval, eval.lookup_value, lookupA]
  · simp [ex3_script, eval.call, eval.lookup_fn, eval.bind_args, eval.eval,
      eval.lookup_value, eval.call_result, eval.has_type, lookupA, insertA, containsA]
  · simp [ex3_script, eval.eval, eval.lookup_value, lookupA]

/-- C3 (amended): `Var(x)` is resolved by `lookup_value`: the seven builtin
names first, then the local environment, and otherwise evaluation fails
with `NoSuchVar(x)` — even when `x` is a declared nullary function.  No
memo cache exists and no nullary call is made. -/
theorem c3_no_nullary_fallback (s : ast.Script) (fuel : Nat) (x : String)
    (env : List (String × eval.Val))
    (hb : x ∉ builtin_values) (henv : lookupA env x = none)
    (hdecl : (lookupA s.funcs x).isSome = true) :
    eval.eval s (fuel + 1) (.Var x) env = .error (.NoSuchVar x) := by
  simp [builtin_values] at hb
  obtain ⟨h1, h2, h3, h4, h5, h6, h7⟩ := hb
  simp [eval.eval, eval.lookup_value, h1, h2, h3, h4, h5, h6, h7, henv]

/-- C3: witness — `c3_no_nullary_fallback` applied to the declared nullary
name `five` of `ex3_script`. -/
theorem c3_witness :
    eval.eval ex3_script 43 (.Var "five") [] = .error (.NoSuchVar "five") :=
  c3_no_nullary_fallback ex3_script 42 "five" [] (by decide) rfl rfl

/-- C4: counterexample — calling the ordinary (non-prelude) declaration
`f(x:uint):uint = x` with the actual `-1` raises the runtime
type-mismatch error `ArgIsWrongType`, refuting the claim that non-prelude
calls are never runtime-type-checked. -/
theorem c4_counterexample :
    eval.call ex4_script 10 "f" [.Int (-1)]
      = .error (.ArgIsWrongType "x" .Uint (.Int (-1))) := by
  simp [ex4_script, eval.call, eval.lookup_fn, eval.bind_args, eval.eval,
    eval.lookup_value, eval.has_type, lookupA, insertA, containsA]

/-- C4 (amended): `call` enforces types at runtime for every declaration,
prelude or not: each evaluated actual is checked with `has_type` against
its evaluated declared argument type, and a mismatch on the first argument
raises `ArgIsWrongType` (the result is likewise checked against the
evaluated return type). -/
theorem c4_runtime_check (s : ast.Script) (fuel : Nat) (name : String)
    (func : ast.Func) (an : String) (aty : Expr) (frest : List (String × Expr))
    (a : eval.Val) (arest : List eval.Val) (t : eval.Ty)
    (hlf : eval.lookup_fn s name = .ok func)
    (hargs : func.args = (an, aty) :: frest)
    (hlen : func.args.length = (a :: arest).length)
    (hty : eval.eval s fuel aty [] = .ok (.Typ t))
    (hht : eval.has_type s a t = false) :
    eval.call s (fuel + 1) name (a :: arest) = .error (.ArgIsWrongType an t a) := by
  have hlen2 : frest.length = arest.length := by
    rw [hargs] at hlen
    simpa using hlen
  simp [eval.call, hlf, hlen, hlen2, hargs, eval.bind_args, hty, hht]

/-- C4: witness — `c4_runtime_check` applied to `f(x:uint):uint = x` and
the ill-typed actual `-1`. -/
theorem c4_witness :
    eval.call ex4_script 43 "f" [.Int (-1)]
      = .error (.ArgIsWrongType "x" .Uint (.Int (-1))) :=
  c4_runtime_check ex4_script 42 "f" ⟨[("x", .Var "uint")], .Var "uint", .Var "x"⟩
    "x" (.Var "uint") [] (.Int (-1)) [] .Uint
    rfl rfl rfl (by simp [eval.eval, eval.lookup_value]) rfl

/-- C5: `can_coerce_type` rejects `vector(uint, 2)` (and also the
`list(uint, 2)` spelling that `is_vector_type` actually matches) as a
subtype of `tuple([uint, uint])`: the vector-to-tuple branch in the source
is nested inside a successful `is_tuple_type(sub)` test and so can never
fire, contradicting the claim and the function's own documentation
comment. -/
theorem c5_vector_tuple_rejected :
    typecheck.can_coerce_type (.Call "vector" [.Var "uint", .Int 2])
      (.Call "tuple" [.Array [.Var "uint", .Var "uint"]]) [] [] = false ∧
    typecheck.can_coerce_type (.Call "list" [.Var "uint", .Int 2])
      (.Call "tuple" [.Array [.Var "uint", .Var "uint"]]) [] [] = false := by
  constructor <;>
    simp [typecheck.can_coerce_type, typecheck.is_label, typecheck.is_list_type,
      typecheck.is_vector_type, typecheck.is_tuple_type, typecheck.is_explicit_array]

/-- Pointwise reading of a successful `eval_args`: every element was
evaluated (strictly), in order, at the same fuel. -/
theorem eval_args_ok_spec (s : ast.Script) (fuel : Nat) :
    ∀ (xs : List Expr) (env : List (String × eval.Val)) (vs : List eval.Val),
      eval.eval_args s fuel xs env = .ok vs →
      vs.length = xs.length ∧ ∀ (i : Nat) (h1 : i < xs.length) (h2 : i < vs.length),
        eval.eval s fuel (xs.get ⟨i, h1⟩) env = .ok (vs.get ⟨i, h2⟩)
  | [], env, vs, h => by
    simp [eval.eval_args] at h
    subst h
    exact ⟨rfl, fun i h1 h2 => absurd h1 (by simp)⟩
  | x :: xrest, env, vs, h => by
    rw [eval.eval_args] at h
    rcases hx : eval.eval s fuel x env with e | v
    · rw [hx] at h; exact absurd h (by simp)
    · rw [hx] at h
      rcases hxs : eval.eval_args s fuel xrest env with e | vrest
      · rw [hxs] at h; exact absurd h (by simp)
      · rw [hxs] at h
        simp at h
        subst h
        obtain ⟨hlen, hpt⟩ := eval_args_ok_spec s fuel xrest env vrest hxs
        refine ⟨by simp [hlen], fun i h1 h2 => ?_⟩
        match i with
        | 0 => simpa using hx
        | j + 1 => simpa using hpt j (by simpa using h1) (by simpa using h2)

/-- C8: a successful evaluation of `Array(xs)` produces `Val::Array` of
exactly the element values, each element having been evaluated (strictly)
in the same environment, in order.  (The `Array` arm is absent from the
non-exhaustive `match` in `eval.rs`; it is modelled from the spec.) -/
theorem c8_array_strict (s : ast.Script) (fuel : Nat)
    (env : List (String × eval.Val)) (xs : List Expr) (v : eval.Val)
    (h : eval.eval s (fuel + 1) (.Array xs) env = .ok v) :
    ∃ vs, v = .Array vs ∧ vs.length = xs.length ∧
      ∀ (i : Nat) (h1 : i < xs.length) (h2 : i < vs.length),
        eval.eval s fuel (xs.get ⟨i, h1⟩) env = .ok (vs.get ⟨i, h2⟩) := by
  rw [eval.eval] at h
  rcases hxs : eval.eval_args s fuel xs env with e | vals
  · rw [hxs] at h; exact absurd h (by simp)
  · rw [hxs] at h
    simp at h
    obtain ⟨hlen, hpt⟩ := eval_args_ok_spec s fuel xs env vals hxs
    exact ⟨vals, h.symm, hlen, hpt⟩

/-- C8: witness — `c8_array_strict` applied to the literal array
`[1, 2]`, extracting the strict evaluation of its second element. -/
theorem c8_witness : eval.eval ⟨[], []⟩ 1 (Expr.Int 2) [] = .ok (.Int 2) := by
  obtain ⟨vs, hvs, hlen, hpt⟩ := c8_array_strict ⟨[], []⟩ 1 [] [.Int 1, .Int 2]
    (.Array [.Int 1, .Int 2])
    (by simp [eval.eval, eval.eval_args])
  have hv : vs = [.Int 1, .Int 2] := by
    cases hvs
    rfl
  subst hv
  exact hpt 1 (by decide) (by decide)

namespace parse

theorem funcs_to_script_ok {fl : List (String × ast.Func)} {s : ast.Script}
    (h : funcs_to_script fl = .ok s) : s.declaration_order = [] := by
  rw [funcs_to_script] at h
  rcases hb : build_script_funcs fl [] with e | funcs
  · rw [hb] at h; exact absurd h (by simp)
  · rw [hb] at h
    simp at h
    rw [← h]

theorem map_res_ok {α β : Type} {p : List Char → IResult α} {f : α → Except String β}
    {input i : List Char} {o : β}
    (h : map_res p f input = .ok (i, o)) : ∃ a, f a = .ok o := by
  rw [map_res] at h
  rcases hp : p input with e | io
  · rw [hp] at h; exact absurd h (by simp)
  · obtain ⟨i2, a⟩ := io
    rw [hp] at h
    dsimp only at h
    rcases hf : f a with e | o2
    · rw [hf] at h; exact absurd h (by simp)
    · rw [hf] at h
      simp at h
      exact ⟨a, by rw [h.2] at hf; exact hf⟩

theorem all_consuming_ok {α : Type} {p : List Char → IResult α} {input i : List Char}
    {o : α} (h : all_consuming p input = .ok (i, o)) : ∃ i2, p input = .ok (i2, o) := by
  rw [all_consuming] at h
  rcases hp : p input with e | io
  · rw [hp] at h; exact absurd h (by simp)
  · obtain ⟨i2, o2⟩ := io
    rw [hp] at h
    by_cases hi : i2.length = 0
    · simp [hi] at h
      exact ⟨i2, by rw [h.2]⟩
    · simp [hi] at h

theorem preceded_ok {α β : Type} {p : List Char → IResult α} {q : List Char → IResult β}
    {input i : List Char} {o : β}
    (h : preceded p q input = .ok (i, o)) : ∃ i2, q i2 = .ok (i, o) := by
  rw [preceded] at h
  rcases hp : p input with e | io
  · rw [hp] at h; exact absurd h (by simp)
  · obtain ⟨i2, o2⟩ := io
    rw [hp] at h
    exact ⟨i2, h⟩

end parse

/-- C10: every `Script` that `parse` accepts has an empty
`declaration_order`: `funcs_to_script` drains the function list into the
map and only then computes the order from the (now empty) list. -/
theorem c10_declaration_order_empty (input : String) (s : ast.Script)
    (h : parse.parse input = .ok s) : s.declaration_order = [] := by
  simp only [parse.parse] at h
  rcases ha : parse.all_consuming
      (parse.preceded parse.whitespace (parse.script (input.toList.length * 2 + 8)))
      input.toList with e | io
  · rw [ha] at h
    rcases e with pe | pe <;> exact absurd h (by simp)
  · obtain ⟨i, s2⟩ := io
    rw [ha] at h
    simp at h
    obtain ⟨i2, hp⟩ := parse.all_consuming_ok ha
    obtain ⟨i3, hq⟩ := parse.preceded_ok hp
    rw [parse.script] at hq
    obtain ⟨fl, hf⟩ := parse.map_res_ok hq
    rw [← h]
    exact parse.funcs_to_script_ok hf

/-- C10: witness — `parse` accepts `f(x:uint):uint=x;` and the returned
script's `declaration_order` is empty. -/
theorem c10_witness :
    parse.parse "f(x:uint):uint=x;"
      = .ok ⟨[], [("f", ⟨[("x", .Var "uint")], .Var "uint", .Var "x"⟩)]⟩ ∧
    (⟨[], [("f", ⟨[("x", .Var "uint")], .Var "uint", .Var "x"⟩)]⟩ :
      ast.Script).declaration_order = [] :=
  ⟨rfl, c10_declaration_order_empty "f(x:uint):uint=x;" _ rfl⟩

theorem lookupA_mem {α : Type} {l : List (String × α)} {k : String} {v : α}
    (h : lookupA l k = some v) : (k, v) ∈ l := by
  induction l with
  | nil => simp [lookupA] at h
  | cons p rest ih =>
    obtain ⟨k2, v2⟩ := p
    rw [lookupA] at h
    by_cases hk : k2 = k
    · simp [hk] at h
      subst hk
      subst h
      exact List.mem_cons_self _ _
    · simp [hk] at h
      exact List.mem_cons_of_mem _ (ih h)

theorem lookupA_is_some_iff {α : Type} {l : List (String × α)} {k : String} :
    (lookupA l k).isSome = true ↔ k ∈ l.map Prod.fst := by
  induction l with
  | nil => simp [lookupA]
  | cons p rest ih =>
    obtain ⟨k2, v2⟩ := p
    rw [lookupA]
    by_cases hk : k2 = k
    · simp [hk]
    · simp [hk, ih, Ne.symm hk]

theorem filter_length_mono {α : Type} (p q : α → Bool) (l : List α)
    (h : ∀ x ∈ l, q x = true → p x = true) :
    (l.filter q).length ≤ (l.filter p).length := by
  induction l with
  | nil => simp
  | cons a rest ih =>
    have ih2 := ih (fun x hx => h x (List.mem_cons_of_mem _ hx))
    by_cases hq : q a = true
    · have hp := h a (List.mem_cons_self _ _) hq
      simp [List.filter_cons, hq, hp]
      omega
    · simp at hq
      by_cases hp : p a = true
      · simp [List.filter_cons, hq, hp]
        omega
      · simp at hp
        simp [List.filter_cons, hq, hp]
        exact ih2

theorem filter_length_strict {α : Type} (p q : α → Bool) (l : List α) (a : α)
    (ha : a ∈ l) (hpa : p a = true) (hqa : q a = false)
    (h : ∀ x ∈ l, q x = true → p x = true) :
    (l.filter q).length < (l.filter p).length := by
  induction l with
  | nil => simp at ha
  | cons b rest ih =>
    have hmono := filter_length_mono p q rest (fun x hx => h x (List.mem_cons_of_mem _ hx))
    rcases List.mem_cons.mp ha with hb | ha2
    · subst hb
      simp [List.filter_cons, hpa, hqa]
      omega
    · have ih2 := ih ha2 (fun x hx => h x (List.mem_cons_of_mem _ hx))
      by_cases hq : q b = true
      · have hp := h b (List.mem_cons_self _ _) hq
        simp [List.filter_cons, hq, hp]
        omega
      · simp at hq
        by_cases hp : p b = true
        · simp [List.filter_cons, hq, hp]
          omega
        · simp at hp
          simp [List.filter_cons, hq, hp]
          exact ih2

theorem indexOf_append_left {a : String} {l l2 : List String} (h : a ∈ l) :
    (l ++ l2).indexOf a = l.indexOf a := by
  induction l with
  | nil => simp at h
  | cons b rest ih =>
    by_cases hb : b = a
    · simp [List.indexOf_cons, hb]
    · rcases List.mem_cons.mp h with h1 | h2
      · exact absurd h1.symm hb
      · simp only [List.cons_append, List.indexOf_cons]
        have hbeq : (b == a) = false := beq_eq_false_iff_ne.mpr hb
        simp [hbeq, ih h2]

theorem indexOf_append_fresh {a : String} {l : List String} (h : a ∉ l) :
    (l ++ [a]).indexOf a = l.length := by
  induction l with
  | nil => simp
  | cons b rest ih =>
    have hb : b ≠ a := fun hc => h (hc ▸ List.mem_cons_self _ _)
    have hbeq : (b == a) = false := beq_eq_false_iff_ne.mpr hb
    simp only [List.cons_append, List.indexOf_cons, hbeq, cond_false, List.length_cons]
    rw [ih (fun hc => h (List.mem_cons_of_mem _ hc))]

theorem indexOf_mem_lt_length {a : String} {l : List String} (h : a ∈ l) :
    l.indexOf a < l.length := List.indexOf_lt_length.mpr h

theorem lookupA_foldl_insert {c : combine.Visited} (P : List String)
    (init : List (String × combine.Visited)) (x : String) :
    lookupA (P.foldl (fun v n => insertA v n c) init) x
      = if x ∈ P then some c else lookupA init x := by
  induction P generalizing init with
  | nil => simp
  | cons n rest ih =>
    rw [List.foldl_cons, ih]
    by_cases hx : x ∈ rest
    · simp [hx]
    · by_cases hn : n = x
      · simp [hx, hn, insertA, lookupA]
      · have hxn : ¬ x = n := fun h => hn h.symm
        simp [hx, hn, hxn, insertA, lookupA]

namespace combine

/-- Dependencies of an `ast.Func` (the prelude/user tag plays no role). -/
def ast_deps (d : ast.Func) : List String :=
  func_deps ⟨d.args, d.ret, d.body, false⟩

/-- The merged declaration list of two scripts, prelude first. -/
def all_decls (p m : Script) : List (String × ast.Func) :=
  p.decls ++ m.decls

/-- The declaration dependency edge relation of a pair of scripts:
`a` references `b` (through arg types, return type or body). -/
def EdgeS (p m : Script) (a b : String) : Prop :=
  ∃ d, lookupA (all_decls p m) a = some d ∧ b ∈ ast_deps d

/-- Every name referenced by any declaration of the merged scripts is
declared. -/
def ClosedS (p m : Script) : Prop :=
  ∀ e ∈ all_decls p m, ∀ d ∈ ast_deps e.2, d ∈ (all_decls p m).map Prod.fst

/-- The edge relation over the built function map. -/
def EdgeF (funcs : List (String × Func)) (a b : String) : Prop :=
  ∃ f, lookupA funcs a = some f ∧ b ∈ func_deps f

/-- Closedness over the built function map. -/
def ClosedF (funcs : List (String × Func)) : Prop :=
  ∀ name f, lookupA funcs name = some f → ∀ d ∈ func_deps f, containsA funcs d = true

/-- The number of declared names not yet carrying a visit marker — the
quantity that bounds the depth of the ordering DFS. -/
def unvisited_count (funcs : List (String × Func))
    (visits : List (String × Visited)) : Nat :=
  ((funcs.map Prod.fst).filter (fun x => (lookupA visits x).isNone)).length

/-- The state invariant maintained by the ordering DFS, relative to the
built map `funcs` and the prelude name list `P`. -/
structure Inv (funcs : List (String × Func)) (P : List String) (st : VState) : Prop where
  order_shape : ∃ t, st.order = P ++ t
  order_nodup : st.order.Nodup
  mem_order : ∀ x, x ∈ st.order ↔ lookupA st.visits x = some .Visited
  visited_decl : ∀ x, lookupA st.visits x = some .Visited → containsA funcs x = true
  topo : ∀ x, x ∈ st.order → x ∉ P →
    ∃ f, lookupA funcs x = some f ∧ ∀ d ∈ func_deps f,
      lookupA st.visits d = some .Visited ∧ st.order.indexOf d < st.order.indexOf x

/-- Visited marks persist. -/
def VisitedMono (st st' : VState) : Prop :=
  ∀ x, lookupA st.visits x = some .Visited → lookupA st'.visits x = some .Visited

/-- Marked names stay marked. -/
def SomeMono (st st' : VState) : Prop :=
  ∀ x, (lookupA st.visits x).isSome = true → (lookupA st'.visits x).isSome = true

/-- A successful visit leaves the set of `Visiting` marks unchanged. -/
def VisitingEq (st st' : VState) : Prop :=
  ∀ x, lookupA st'.visits x = some .Visiting ↔ lookupA st.visits x = some .Visiting

/-- The order only grows at the end. -/
def OrderExt (st st' : VState) : Prop :=
  ∃ ext, st'.order = st.order ++ ext

theorem get_dependencies_ok {funcs : List (String × Func)} {name : String}
    {deps : List String} (h : get_dependencies funcs name = .ok deps) :
    ∃ f, lookupA funcs name = some f ∧ deps = func_deps f := by
  rw [get_dependencies] at h
  rcases hl : lookupA funcs name with _ | f
  · rw [hl] at h; exact absurd h (by simp)
  · rw [hl] at h
    simp at h
    exact ⟨f, rfl, h.symm⟩

mutual

theorem visit_post (funcs : List (String × Func)) (fuel : Nat) (name : String)
    (st st' : VState) (h : visit_for_ordering funcs fuel name st = .ok st') :
    VisitedMono st st' ∧ SomeMono st st' ∧ VisitingEq st st' ∧
      lookupA st'.visits name = some .Visited ∧ OrderExt st st' := by
  match fuel with
  | 0 => rw [visit_for_ordering] at h; exact absurd h (by simp)
  | fuel + 1 =>
    rw [visit_for_ordering] at h
    rcases hm : lookupA st.visits name with _ | v
    · rw [hm] at h
      dsimp only at h
      rcases hg : get_dependencies funcs name with e | deps
      · rw [hg] at h; exact absurd h (by simp)
      · rw [hg] at h
        dsimp only at h
        rcases hv : visit_list funcs fuel deps ⟨insertA st.visits name .Visiting, st.order⟩
            with e | st2
        · rw [hv] at h; exact absurd h (by simp)
        · rw [hv] at h
          simp at h
          obtain ⟨hmono, hsome, hviseq, hds, hext⟩ := visit_list_post funcs fuel deps _ st2 hv
          refine h ▸ ⟨?_, ?_, ?_, ?_, ?_⟩
          · intro x hx
            have hxname : x ≠ name := fun hc => by rw [hc, hm] at hx; exact absurd hx (by simp)
            have h1 : lookupA (insertA st.visits name .Visiting) x = some .Visited := by
              simpa [insertA, lookupA, Ne.symm hxname] using hx
            have h2 := hmono x h1
            simpa [insertA, lookupA, Ne.symm hxname] using h2
          · intro x hx
            have hxname : x ≠ name := fun hc => by rw [hc, hm] at hx; exact absurd hx (by simp)
            simp [insertA, lookupA, Ne.symm hxname]
            have h1 : (lookupA (insertA st.visits name .Visiting) x).isSome = true := by
              simpa [insertA, lookupA, Ne.symm hxname] using hx
            have h2 := hsome x h1
            simpa [insertA, lookupA, Ne.symm hxname] using h2
          · intro x
            by_cases hxname : x = name
            · subst hxname
              simp [insertA, lookupA, hm]
            · have e1 : lookupA (insertA st2.visits name .Visited) x = lookupA st2.visits x := by
                simp [insertA, lookupA, Ne.symm hxname]
              have e2 : lookupA (insertA st.visits name .Visiting) x = lookupA st.visits x := by
                simp [insertA, lookupA, Ne.symm hxname]
              rw [e1, hviseq x, e2]
          · simp [insertA, lookupA]
          · obtain ⟨ext, hext2⟩ := hext
            exact ⟨ext ++ [name], by simp [hext2]⟩
    · rcases v with _ | _
      · rw [hm] at h; exact absurd h (by simp)
      · rw [hm] at h
        simp at h
        subst h
        exact ⟨fun x hx => hx, fun x hx => hx, fun x => Iff.rfl, hm, [], by simp⟩
termination_by (fuel, 0)

theorem visit_list_post (funcs : List (String × Func)) (fuel : Nat) (ds : List String)
    (st st' : VState) (h : visit_list funcs fuel ds st = .ok st') :
    VisitedMono st st' ∧ SomeMono st st' ∧ VisitingEq st st' ∧
      (∀ d ∈ ds, lookupA st'.visits d = some .Visited) ∧ OrderExt st st' := by
  match ds with
  | [] =>
    rw [visit_list] at h
    simp at h
    subst h
    exact ⟨fun x hx => hx, fun x hx => hx, fun x => Iff.rfl, by simp, [], by simp⟩
  | d :: drest =>
    rw [visit_list] at h
    rcases hv : visit_for_ordering funcs fuel d st with e | st1
    · rw [hv] at h; exact absurd h (by simp)
    · rw [hv] at h
      dsimp only at h
      obtain ⟨m1, s1, v1, d1, e1⟩ := visit_post funcs fuel d st st1 hv
      obtain ⟨m2, s2, v2, d2, e2⟩ := visit_list_post funcs fuel drest st1 st' h
      refine ⟨fun x hx => m2 x (m1 x hx), fun x hx => s2 x (s1 x hx),
        fun x => (v2 x).trans (v1 x), ?_, ?_⟩
      · intro dd hdd
        rcases List.mem_cons.mp hdd with h1 | h2
        · exact h1 ▸ m2 d d1
        · exact d2 dd h2
      · obtain ⟨x1, hx1⟩ := e1
        obtain ⟨x2, hx2⟩ := e2
        exact ⟨x1 ++ x2, by simp [hx2, hx1]⟩
termination_by (fuel, ds.length + 1)

end

end combine

namespace combine

theorem inv_mark_visiting {funcs : List (String × Func)} {P : List String}
    {st : VState} {name : String} (hinv : Inv funcs P st)
    (hm : lookupA st.visits name = none) :
    Inv funcs P ⟨insertA st.visits name .Visiting, st.order⟩ := by
  have hnotord : name ∉ st.order := fun hc => by
    have := (hinv.mem_order name).mp hc
    rw [hm] at this
    exact absurd this (by simp)
  refine ⟨hinv.order_shape, hinv.order_nodup, ?_, ?_, ?_⟩
  · intro x
    by_cases hx : x = name
    · subst hx
      simp [insertA, lookupA, hnotord]
    · rw [show lookupA (insertA st.visits name .Visiting) x = lookupA st.visits x by
        simp [insertA, lookupA, Ne.symm hx]]
      exact hinv.mem_order x
  · intro x hx
    by_cases hxn : x = name
    · subst hxn
      simp [insertA, lookupA] at hx
    · rw [show lookupA (insertA st.visits name .Visiting) x = lookupA st.visits x by
        simp [insertA, lookupA, Ne.symm hxn]] at hx
      exact hinv.visited_decl x hx
  · intro x hx hp
    obtain ⟨f, hf, hd⟩ := hinv.topo x hx hp
    refine ⟨f, hf, fun d hdd => ?_⟩
    obtain ⟨hvis, hidx⟩ := hd d hdd
    have hdn : d ≠ name := fun hc => by rw [hc, hm] at hvis; exact absurd hvis (by simp)
    exact ⟨by simpa [insertA, lookupA, Ne.symm hdn] using hvis, hidx⟩

mutual

theorem visit_inv (funcs : List (String × Func)) (P : List String) (fuel : Nat)
    (name : String) (st st' : VState)
    (h : visit_for_ordering funcs fuel name st = .ok st') (hinv : Inv funcs P st) :
    Inv funcs P st' := by
  match fuel with
  | 0 => rw [visit_for_ordering] at h; exact absurd h (by simp)
  | fuel + 1 =>
    rw [visit_for_ordering] at h
    rcases hm : lookupA st.visits name with _ | v
    · rw [hm] at h
      dsimp only at h
      rcases hg : get_dependencies funcs name with e | deps
      · rw [hg] at h; exact absurd h (by simp)
      · rw [hg] at h
        dsimp only at h
        rcases hv : visit_list funcs fuel deps ⟨insertA st.visits name .Visiting, st.order⟩
            with e | st2
        · rw [hv] at h; exact absurd h (by simp)
        · rw [hv] at h
          simp at h
          obtain ⟨fdecl, hfd, hdeps⟩ := get_dependencies_ok hg
          have hinv1 := inv_mark_visiting hinv hm
          have hinv2 := visit_list_inv funcs P fuel deps _ st2 hv hinv1
          obtain ⟨hmono, hsome, hviseq, hds, hext⟩ := visit_list_post funcs fuel deps _ st2 hv
          -- `name` is still Visiting in st2, hence not Visited and not in the order
          have hvisiting2 : lookupA st2.visits name = some .Visiting := by
            rw [hviseq name]
            simp [insertA, lookupA]
          have hnotvis2 : ¬ lookupA st2.visits name = some .Visited := by
            rw [hvisiting2]; simp
          have hnotord2 : name ∉ st2.order := fun hc => hnotvis2 ((hinv2.mem_order name).mp hc)
          subst h
          refine ⟨?_, ?_, ?_, ?_, ?_⟩
          · obtain ⟨t2, ht2⟩ := hinv2.order_shape
            exact ⟨t2 ++ [name], by simp [ht2]⟩
          · simp only [List.nodup_append]
            exact ⟨hinv2.order_nodup, by simp, by
              intro a ha hb
              simp at hb
              exact hnotord2 (hb ▸ ha)⟩
          · intro x
            by_cases hx : x = name
            · subst hx
              simp [insertA, lookupA]
            · rw [show lookupA (insertA st2.visits name .Visited) x = lookupA st2.visits x by
                simp [insertA, lookupA, Ne.symm hx]]
              rw [List.mem_append]
              constructor
              · intro hc
                rcases hc with hc | hc
                · exact (hinv2.mem_order x).mp hc
                · simp at hc; exact absurd hc hx
              · intro hc
                exact Or.inl ((hinv2.mem_order x).mpr hc)
          · intro x hx
            by_cases hxn : x = name
            · subst hxn
              simp [containsA, hfd]
            · rw [show lookupA (insertA st2.visits name .Visited) x = lookupA st2.visits x by
                simp [insertA, lookupA, Ne.symm hxn]] at hx
              exact hinv2.visited_decl x hx
          · intro x hx hp
            rcases List.mem_append.mp hx with hxo | hxn
            · -- an old entry of the order
              have hxname : x ≠ name := fun hc => hnotord2 (hc ▸ hxo)
              obtain ⟨f, hf, hd⟩ := hinv2.topo x hxo hp
              refine ⟨f, hf, fun d hdd => ?_⟩
              obtain ⟨hvis, hidx⟩ := hd d hdd
              have hdn : d ≠ name := fun hc => hnotvis2 (hc ▸ hvis)
              have hdord : d ∈ st2.order := (hinv2.mem_order d).mpr hvis
              refine ⟨by simpa [insertA, lookupA, Ne.symm hdn] using hvis, ?_⟩
              rw [indexOf_append_left hdord, indexOf_append_left hxo]
              exact hidx
            · -- the appended name itself
              simp at hxn
              subst hxn
              refine ⟨fdecl, hfd, fun d hdd => ?_⟩
              have hdvis : lookupA st2.visits d = some .Visited := hds d (hdeps ▸ hdd)
              have hdn : d ≠ x := fun hc => hnotvis2 (hc ▸ hdvis)
              have hdord : d ∈ st2.order := (hinv2.mem_order d).mpr hdvis
              refine ⟨by simpa [insertA, lookupA, Ne.symm hdn] using hdvis, ?_⟩
              rw [indexOf_append_left hdord, indexOf_append_fresh hnotord2]
              exact lt_of_lt_of_le (indexOf_mem_lt_length hdord) (le_refl _)
    · rcases v with _ | _
      · rw [hm] at h; exact absurd h (by simp)
      · rw [hm] at h
        simp at h
        subst h
        exact hinv
termination_by (fuel, 0)

theorem visit_list_inv (funcs : List (String × Func)) (P : List String) (fuel : Nat)
    (ds : List String) (st st' : VState)
    (h : visit_list funcs fuel ds st = .ok st') (hinv : Inv funcs P st) :
    Inv funcs P st' := by
  match ds with
  | [] =>
    rw [visit_list] at h
    simp at h
    exact h ▸ hinv
  | d :: drest =>
    rw [visit_list] at h
    rcases hv : visit_for_ordering funcs fuel d st with e | st1
    · rw [hv] at h; exact absurd h (by simp)
    · rw [hv] at h
      dsimp only at h
      exact visit_list_inv funcs P fuel drest st1 st' h (visit_inv funcs P fuel d st st1 hv hinv)
termination_by (fuel, ds.length + 1)

end

end combine

namespace combine

/-- Every `Visiting` name reaches the node about to be visited. -/
def AncestorInv (funcs : List (String × Func)) (st : VState) (n : String) : Prop :=
  ∀ v, lookupA st.visits v = some .Visiting → Relation.TransGen (EdgeF funcs) v n

theorem anc_preserved {funcs : List (String × Func)} {st st' : VState} {d : String}
    (heq : VisitingEq st st') (hanc : AncestorInv funcs st d) :
    AncestorInv funcs st' d :=
  fun v hv => hanc v ((heq v).mp hv)

theorem anc_extend {funcs : List (String × Func)} {st : VState} {name : String}
    {f : Func} {d : String} (hanc : AncestorInv funcs st name)
    (hf : lookupA funcs name = some f) (hd : d ∈ func_deps f) :
    AncestorInv funcs ⟨insertA st.visits name .Visiting, st.order⟩ d := by
  intro v hv
  by_cases hvn : v = name
  · subst hvn
    exact Relation.TransGen.single ⟨f, hf, hd⟩
  · have hv2 : lookupA st.visits v = some .Visiting := by
      simpa [insertA, lookupA, Ne.symm hvn] using hv
    exact (hanc v hv2).tail ⟨f, hf, hd⟩

theorem uc_mono (funcs : List (String × Func)) {st st' : VState}
    (h : SomeMono st st') :
    unvisited_count funcs st'.visits ≤ unvisited_count funcs st.visits := by
  apply filter_length_mono
  intro x _ hx
  simp only [Option.isNone_iff_eq_none] at hx ⊢
  rcases hs : lookupA st.visits x with _ | v
  · rfl
  · have := h x (by simp [hs])
    rw [hx] at this
    simp at this

theorem uc_strict (funcs : List (String × Func)) {st : VState} {name : String}
    (hd : containsA funcs name = true) (hm : lookupA st.visits name = none) :
    unvisited_count funcs (insertA st.visits name .Visiting)
      < unvisited_count funcs st.visits := by
  apply filter_length_strict _ _ _ name
  · rw [← lookupA_is_some_iff]
    exact hd
  · simp [hm]
  · simp [insertA, lookupA]
  · intro x _ hx
    simp only [Option.isNone_iff_eq_none] at hx ⊢
    by_cases hxn : name = x
    · simp [insertA, lookupA, hxn] at hx
    · simpa [insertA, lookupA, hxn] using hx

end combine

namespace combine

mutual

theorem visit_err (funcs : List (String × Func)) (fuel : Nat) (name : String)
    (st : VState) (e : CombineError)
    (h : visit_for_ordering funcs fuel name st = .error e)
    (hclosed : ClosedF funcs)
    (hdecl : containsA funcs name = true ∨ (lookupA st.visits name).isSome = true) :
    ∃ m, e = .Recursion m := by
  match fuel with
  | 0 =>
    rw [visit_for_ordering] at h
    simp at h
    exact ⟨name, h.symm⟩
  | fuel + 1 =>
    rw [visit_for_ordering] at h
    rcases hm : lookupA st.visits name with _ | v
    · rw [hm] at h
      dsimp only at h
      have hdecl2 : containsA funcs name = true := by
        rcases hdecl with hd | hd
        · exact hd
        · rw [hm] at hd; simp at hd
      rcases hf : lookupA funcs name with _ | f
      · rw [containsA, hf] at hdecl2; simp at hdecl2
      · have hg : get_dependencies funcs name = .ok (func_deps f) := by
          rw [get_dependencies, hf]
        rw [hg] at h
        dsimp only at h
        rcases hv : visit_list funcs fuel (func_deps f)
            ⟨insertA st.visits name .Visiting, st.order⟩ with e2 | st2
        · rw [hv] at h
          simp at h
          subst h
          exact visit_list_err funcs fuel (func_deps f) _ e2 hv hclosed
            (fun d hd => hclosed name f hf d hd)
        · rw [hv] at h
          exact absurd h (by simp)
    · rcases v with _ | _
      · rw [hm] at h
        simp at h
        exact ⟨name, h.symm⟩
      · rw [hm] at h
        exact absurd h (by simp)
termination_by (fuel, 0)

theorem visit_list_err (funcs : List (String × Func)) (fuel : Nat) (ds : List String)
    (st : VState) (e : CombineError)
    (h : visit_list funcs fuel ds st = .error e)
    (hclosed : ClosedF funcs)
    (hdecl : ∀ d ∈ ds, containsA funcs d = true) :
    ∃ m, e = .Recursion m := by
  match ds with
  | [] => rw [visit_list] at h; exact absurd h (by simp)
  | d :: drest =>
    rw [visit_list] at h
    rcases hv : visit_for_ordering funcs fuel d st with e2 | st1
    · rw [hv] at h
      simp at h
      subst h
      exact visit_err funcs fuel d st e2 hv hclosed
        (Or.inl (hdecl d (List.mem_cons_self _ _)))
    · rw [hv] at h
      dsimp only at h
      exact visit_list_err funcs fuel drest st1 e h hclosed
        (fun x hx => hdecl x (List.mem_cons_of_mem _ hx))
termination_by (fuel, ds.length + 1)

end

mutual

theorem visit_sound (funcs : List (String × Func)) (fuel : Nat) (name : String)
    (st : VState) (m : String)
    (h : visit_for_ordering funcs fuel name st = .error (.Recursion m))
    (hanc : AncestorInv funcs st name)
    (hfuel : unvisited_count funcs st.visits < fuel) :
    Relation.TransGen (EdgeF funcs) m m := by
  match fuel with
  | 0 => exact absurd hfuel (by omega)
  | fuel + 1 =>
    rw [visit_for_ordering] at h
    rcases hm : lookupA st.visits name with _ | v
    · rw [hm] at h
      dsimp only at h
      rcases hg : get_dependencies funcs name with e | deps
      · rw [hg] at h
        rw [get_dependencies] at hg
        rcases hf : lookupA funcs name with _ | f
        · rw [hf] at hg
          simp at hg
          rw [← hg] at h
          simp at h
        · rw [hf] at hg; simp at hg
      · rw [hg] at h
        dsimp only at h
        obtain ⟨f, hf, hdeps⟩ := get_dependencies_ok hg
        rcases hv : visit_list funcs fuel deps
            ⟨insertA st.visits name .Visiting, st.order⟩ with e2 | st2
        · rw [hv] at h
          simp at h
          subst h
          apply visit_list_sound funcs fuel deps _ m hv
          · intro d hd
            exact anc_extend hanc hf (hdeps ▸ hd)
          · show unvisited_count funcs (insertA st.visits name .Visiting) < fuel
            have hcont : containsA funcs name = true := by
              rw [containsA, hf]; rfl
            have := uc_strict funcs hcont hm
            omega
        · rw [hv] at h
          exact absurd h (by simp)
    · rcases v with _ | _
      · rw [hm] at h
        simp at h
        exact h ▸ hanc name hm
      · rw [hm] at h
        exact absurd h (by simp)
termination_by (fuel, 0)

theorem visit_list_sound (funcs : List (String × Func)) (fuel : Nat) (ds : List String)
    (st : VState) (m : String)
    (h : visit_list funcs fuel ds st = .error (.Recursion m))
    (hanc : ∀ d ∈ ds, AncestorInv funcs st d)
    (hfuel : unvisited_count funcs st.visits < fuel) :
    Relation.TransGen (EdgeF funcs) m m := by
  match ds with
  | [] => rw [visit_list] at h; exact absurd h (by simp)
  | d :: drest =>
    rw [visit_list] at h
    rcases hv : visit_for_ordering funcs fuel d st with e2 | st1
    · rw [hv] at h
      simp at h
      exact visit_sound funcs fuel d st m (h ▸ hv) (hanc d (List.mem_cons_self _ _)) hfuel
    · rw [hv] at h
      dsimp only at h
      obtain ⟨_, hsome, hviseq, _, _⟩ := visit_post funcs fuel d st st1 hv
      apply visit_list_sound funcs fuel drest st1 m h
      · intro x hx
        exact anc_preserved hviseq (hanc x (List.mem_cons_of_mem _ hx))
      · have := uc_mono funcs hsome
        omega
termination_by (fuel, ds.length + 1)

end

mutual

theorem visit_complete (funcs : List (String × Func)) (fuel : Nat) (name : String)
    (st : VState)
    (hclosed : ClosedF funcs)
    (hacyc : ∀ n, ¬ Relation.TransGen (EdgeF funcs) n n)
    (hdecl : containsA funcs name = true)
    (hanc : AncestorInv funcs st name)
    (hfuel : unvisited_count funcs st.visits < fuel) :
    ∃ st', visit_for_ordering funcs fuel name st = .ok st' := by
  match fuel with
  | 0 => exact absurd hfuel (by omega)
  | fuel + 1 =>
    rcases hm : lookupA st.visits name with _ | v
    · rcases hf : lookupA funcs name with _ | f
      · rw [containsA, hf] at hdecl; simp at hdecl
      · have hg : get_dependencies funcs name = .ok (func_deps f) := by
          rw [get_dependencies, hf]
        obtain ⟨st2, hst2⟩ := visit_list_complete funcs fuel (func_deps f)
          ⟨insertA st.visits name .Visiting, st.order⟩ hclosed hacyc
          (fun d hd => hclosed name f hf d hd)
          (fun d hd => anc_extend hanc hf hd)
          (by show unvisited_count funcs (insertA st.visits name .Visiting) < fuel
              have := uc_strict funcs hdecl hm
              omega)
        refine ⟨⟨insertA st2.visits name .Visited, st2.order ++ [name]⟩, ?_⟩
        rw [visit_for_ordering, hm]
        dsimp only
        rw [hg]
        dsimp only
        rw [hst2]
    · rcases v with _ | _
      · exact absurd (hanc name hm) (hacyc name)
      · exact ⟨st, by rw [visit_for_ordering, hm]⟩
termination_by (fuel, 0)

theorem visit_list_complete (funcs : List (String × Func)) (fuel : Nat)
    (ds : List String) (st : VState)
    (hclosed : ClosedF funcs)
    (hacyc : ∀ n, ¬ Relation.TransGen (EdgeF funcs) n n)
    (hdecl : ∀ d ∈ ds, containsA funcs d = true)
    (hanc : ∀ d ∈ ds, AncestorInv funcs st d)
    (hfuel : unvisited_count funcs st.visits < fuel) :
    ∃ st', visit_list funcs fuel ds st = .ok st' := by
  match ds with
  | [] => exact ⟨st, by rw [visit_list]⟩
  | d :: drest =>
    obtain ⟨st1, hst1⟩ := visit_complete funcs fuel d st hclosed hacyc
      (hdecl d (List.mem_cons_self _ _)) (hanc d (List.mem_cons_self _ _)) hfuel
    obtain ⟨_, hsome, hviseq, _, _⟩ := visit_post funcs fuel d st st1 hst1
    obtain ⟨st', hst'⟩ := visit_list_complete funcs fuel drest st1 hclosed hacyc
      (fun x hx => hdecl x (List.mem_cons_of_mem _ hx))
      (fun x hx => anc_preserved hviseq (hanc x (List.mem_cons_of_mem _ hx)))
      (by have := uc_mono funcs hsome; omega)
    refine ⟨st', ?_⟩
    rw [visit_list, hst1]
    dsimp only
    exact hst'
termination_by (fuel, ds.length + 1)

end

end combine

namespace combine

theorem build_funcs_ok_of_fresh :
    ∀ (entries : List ((String × ast.Func) × Bool)) (acc : List (String × Func)),
      (entries.map (fun e => e.1.1)).Nodup →
      (∀ e ∈ entries, containsA acc e.1.1 = false) →
      ∃ funcs, build_funcs entries acc = .ok funcs
  | [], acc, _, _ => ⟨acc, rfl⟩
  | ((name, decl), prel) :: rest, acc, hnodup, hfresh => by
    have hn := hfresh _ (List.mem_cons_self _ _)
    simp only at hn
    obtain ⟨funcs, hf⟩ := build_funcs_ok_of_fresh rest
      (insertA acc name ⟨decl.args, decl.ret, decl.body, prel⟩)
      (by rw [List.map_cons] at hnodup; exact hnodup.of_cons)
      (by
        intro e he
        rw [List.map_cons] at hnodup
        have hne : e.1.1 ≠ name := by
          have := (List.nodup_cons.mp hnodup).1
          intro hc
          exact this (hc ▸ List.mem_map_of_mem (fun e => e.1.1) he)
        have := hfresh e (List.mem_cons_of_mem _ he)
        simpa [containsA, insertA, lookupA, Ne.symm hne] using this)
    exact ⟨funcs, by rw [build_funcs, hn]; exact hf⟩

theorem build_funcs_contains :
    ∀ (entries : List ((String × ast.Func) × Bool)) (acc funcs : List (String × Func)),
      build_funcs entries acc = .ok funcs →
      ∀ x, containsA funcs x = true ↔
        (x ∈ entries.map (fun e => e.1.1) ∨ containsA acc x = true)
  | [], acc, funcs, h, x => by
    rw [build_funcs] at h
    simp at h
    subst h
    simp
  | ((name, decl), prel) :: rest, acc, funcs, h, x => by
    rw [build_funcs] at h
    rcases hc : containsA acc name with _ | _
    · rw [hc] at h
      simp only [Bool.false_eq_true, if_false] at h
      have ih := build_funcs_contains rest _ funcs h x
      rw [ih, List.map_cons]
      by_cases hx : name = x
      · subst hx
        simp [containsA, insertA, lookupA]
      · have hins : containsA (insertA acc name ⟨decl.args, decl.ret, decl.body, prel⟩) x
            = containsA acc x := by
          simp [containsA, insertA, lookupA, hx]
        rw [hins]
        constructor
        · intro hcase
          rcases hcase with hmem | hacc
          · exact Or.inl (List.mem_cons_of_mem _ hmem)
          · exact Or.inr hacc
        · intro hcase
          rcases hcase with hmem | hacc
          · rcases List.mem_cons.mp hmem with h1 | h2
            · exact absurd h1.symm hx
            · exact Or.inl h2
          · exact Or.inr hacc
    · rw [hc] at h
      exact absurd h (by simp)

theorem build_funcs_nodup :
    ∀ (entries : List ((String × ast.Func) × Bool)) (acc funcs : List (String × Func)),
      build_funcs entries acc = .ok funcs →
      (entries.map (fun e => e.1.1)).Nodup ∧ ∀ e ∈ entries, containsA acc e.1.1 = false
  | [], acc, funcs, h => ⟨by simp, by simp⟩
  | ((name, decl), prel) :: rest, acc, funcs, h => by
    rw [build_funcs] at h
    rcases hc : containsA acc name with _ | _
    · rw [hc] at h
      simp only [Bool.false_eq_true, if_false] at h
      obtain ⟨ih1, ih2⟩ := build_funcs_nodup rest _ funcs h
      constructor
      · simp only [List.map_cons, List.nodup_cons]
        refine ⟨?_, ih1⟩
        intro hmem
        obtain ⟨e, he, hee⟩ := List.mem_map.mp hmem
        have := ih2 e he
        rw [hee] at this
        simp [containsA, insertA, lookupA] at this
      · intro e he
        rcases List.mem_cons.mp he with h1 | h2
        · rw [h1]
          exact hc
        · have := ih2 e h2
          by_cases hne : name = e.1.1
          · simp [containsA, insertA, lookupA, hne] at this
          · simpa [containsA, insertA, lookupA, hne] using this
    · rw [hc] at h
      exact absurd h (by simp)

theorem build_funcs_preserve :
    ∀ (entries : List ((String × ast.Func) × Bool)) (acc funcs : List (String × Func)),
      build_funcs entries acc = .ok funcs →
      ∀ x, containsA acc x = true → lookupA funcs x = lookupA acc x
  | [], acc, funcs, h, x, hx => by
    rw [build_funcs] at h
    simp at h
    rw [h]
  | ((name, decl), prel) :: rest, acc, funcs, h, x, hx => by
    rw [build_funcs] at h
    rcases hc : containsA acc name with _ | _
    · rw [hc] at h
      simp only [Bool.false_eq_true, if_false] at h
      have hne : name ≠ x := fun hcc => by rw [hcc] at hc; rw [hx] at hc; exact absurd hc (by simp)
      have := build_funcs_preserve rest _ funcs h x
        (by simp [containsA, insertA, lookupA, hne]; exact hx)
      rw [this]
      simp [insertA, lookupA, hne]
    · rw [hc] at h
      exact absurd h (by simp)

theorem build_funcs_lookup :
    ∀ (entries : List ((String × ast.Func) × Bool)) (acc funcs : List (String × Func)),
      build_funcs entries acc = .ok funcs →
      ∀ name decl prel, ((name, decl), prel) ∈ entries →
        lookupA funcs name = some ⟨decl.args, decl.ret, decl.body, prel⟩
  | [], acc, funcs, h, name, decl, prel, hmem => by simp at hmem
  | ((n2, d2), p2) :: rest, acc, funcs, h, name, decl, prel, hmem => by
    rw [build_funcs] at h
    rcases hc : containsA acc n2 with _ | _
    · rw [hc] at h
      simp only [Bool.false_eq_true, if_false] at h
      rcases List.mem_cons.mp hmem with h1 | h2
      · obtain ⟨he1, he2⟩ := Prod.mk.injEq .. ▸ (by exact h1 : ((name, decl), prel) = ((n2, d2), p2))
        obtain ⟨hn, hd⟩ := Prod.mk.injEq .. ▸ he1
        subst hn; subst hd; subst he2
        have := build_funcs_preserve rest _ funcs h name (by simp [containsA, insertA, lookupA])
        rw [this]
        simp [insertA, lookupA]
      · exact build_funcs_lookup rest _ funcs h name decl prel h2
    · rw [hc] at h
      exact absurd h (by simp)

theorem build_funcs_entries :
    ∀ (entries : List ((String × ast.Func) × Bool)) (acc funcs : List (String × Func)),
      build_funcs entries acc = .ok funcs →
      ∀ af ∈ funcs, af ∈ acc ∨
        ∃ d p2, ((af.1, d), p2) ∈ entries ∧ af.2 = ⟨d.args, d.ret, d.body, p2⟩
  | [], acc, funcs, h, af, haf => by
    rw [build_funcs] at h
    simp at h
    subst h
    exact Or.inl haf
  | ((n2, d2), p2) :: rest, acc, funcs, h, af, haf => by
    rw [build_funcs] at h
    rcases hc : containsA acc n2 with _ | _
    · rw [hc] at h
      simp only [Bool.false_eq_true, if_false] at h
      rcases build_funcs_entries rest _ funcs h af haf with h1 | h2
      · rcases List.mem_cons.mp h1 with h3 | h4
        · subst h3
          exact Or.inr ⟨d2, p2, List.mem_cons_self _ _, rfl⟩
        · exact Or.inl h4
      · obtain ⟨d, pp, hmem, heq⟩ := h2
        exact Or.inr ⟨d, pp, List.mem_cons_of_mem _ hmem, heq⟩
    · rw [hc] at h
      exact absurd h (by simp)

theorem lookupA_of_mem_nodup {α : Type} {l : List (String × α)} {k : String} {v : α}
    (hnodup : (l.map Prod.fst).Nodup) (hmem : (k, v) ∈ l) : lookupA l k = some v := by
  induction l with
  | nil => simp at hmem
  | cons p rest ih =>
    obtain ⟨k2, v2⟩ := p
    rcases List.mem_cons.mp hmem with h1 | h2
    · obtain ⟨hk, hv⟩ := Prod.mk.injEq .. ▸ h1
      subst hk; subst hv
      simp [lookupA]
    · rw [List.map_cons] at hnodup
      have hk2 : k2 ≠ k := by
        intro hc
        have hnotin := (List.nodup_cons.mp hnodup).1
        rw [hc] at hnotin
        exact hnotin (List.mem_map.mpr ⟨(k, v), h2, rfl⟩)
      simp [lookupA, hk2]
      exact ih (List.nodup_cons.mp hnodup).2 h2

end combine

namespace combine

/-- The tagged entry list that `combine` feeds to `build_funcs`. -/
def script_entries (p m : Script) : List ((String × ast.Func) × Bool) :=
  p.decls.map (fun d => (d, true)) ++ m.decls.map (fun d => (d, false))

theorem script_entries_names (p m : Script) :
    (script_entries p m).map (fun e => e.1.1) = (all_decls p m).map Prod.fst := by
  simp only [script_entries, all_decls, List.map_append, List.map_map]
  rfl

theorem entry_of_mem_decls {p m : Script} {a : String} {d : ast.Func}
    (h : (a, d) ∈ all_decls p m) :
    ∃ tag, ((a, d), tag) ∈ script_entries p m := by
  rcases List.mem_append.mp h with h1 | h2
  · exact ⟨true, List.mem_append_left _ (List.mem_map.mpr ⟨(a, d), h1, rfl⟩)⟩
  · exact ⟨false, List.mem_append_right _ (List.mem_map.mpr ⟨(a, d), h2, rfl⟩)⟩

theorem decls_of_mem_entry {p m : Script} {a : String} {d : ast.Func} {tag : Bool}
    (h : ((a, d), tag) ∈ script_entries p m) : (a, d) ∈ all_decls p m := by
  rcases List.mem_append.mp h with h1 | h2
  · obtain ⟨e, he, hee⟩ := List.mem_map.mp h1
    obtain ⟨h3, _⟩ := Prod.mk.injEq .. ▸ hee
    exact List.mem_append_left _ (h3 ▸ he)
  · obtain ⟨e, he, hee⟩ := List.mem_map.mp h2
    obtain ⟨h3, _⟩ := Prod.mk.injEq .. ▸ hee
    exact List.mem_append_right _ (h3 ▸ he)

theorem func_deps_tag (d : ast.Func) (tag : Bool) :
    func_deps ⟨d.args, d.ret, d.body, tag⟩ = ast_deps d := rfl

theorem bridge_edge {p m : Script} {funcs : List (String × Func)}
    (hok : build_funcs (script_entries p m) [] = .ok funcs)
    (hnodup : ((all_decls p m).map Prod.fst).Nodup) :
    ∀ a b, EdgeF funcs a b ↔ EdgeS p m a b := by
  intro a b
  constructor
  · rintro ⟨f, hfa, hb⟩
    rcases build_funcs_entries _ _ _ hok (a, f) (lookupA_mem hfa) with h1 | h2
    · simp at h1
    · obtain ⟨d, tag, hmem, heq⟩ := h2
      refine ⟨d, lookupA_of_mem_nodup hnodup (decls_of_mem_entry hmem), ?_⟩
      simp only at heq
      rw [heq, func_deps_tag] at hb
      exact hb
  · rintro ⟨d, hld, hb⟩
    obtain ⟨tag, hmem⟩ := entry_of_mem_decls (lookupA_mem hld)
    refine ⟨⟨d.args, d.ret, d.body, tag⟩, build_funcs_lookup _ _ _ hok a d tag hmem, ?_⟩
    rw [func_deps_tag]
    exact hb

theorem bridge_closed {p m : Script} {funcs : List (String × Func)}
    (hok : build_funcs (script_entries p m) [] = .ok funcs)
    (hclosed : ClosedS p m) : ClosedF funcs := by
  intro name f hf dep hdep
  rcases build_funcs_entries _ _ _ hok (name, f) (lookupA_mem hf) with h1 | h2
  · simp at h1
  · obtain ⟨d, tag, hmem, heq⟩ := h2
    simp only at heq
    rw [heq, func_deps_tag] at hdep
    have hin := hclosed (name, d) (decls_of_mem_entry hmem) dep hdep
    rw [build_funcs_contains _ _ _ hok dep, script_entries_names]
    exact Or.inl hin

theorem funcs_names_sub {p m : Script} {funcs : List (String × Func)}
    (hok : build_funcs (script_entries p m) [] = .ok funcs) :
    ∀ x, containsA funcs x = true → x ∈ (all_decls p m).map Prod.fst := by
  intro x hx
  rcases (build_funcs_contains _ _ _ hok x).mp hx with h1 | h2
  · rw [script_entries_names] at h1
    exact h1
  · simp [containsA, lookupA] at h2

theorem member_names_contains {p m : Script} {funcs : List (String × Func)}
    (hok : build_funcs (script_entries p m) [] = .ok funcs) :
    ∀ x, x ∈ (all_decls p m).map Prod.fst → containsA funcs x = true := by
  intro x hx
  rw [build_funcs_contains _ _ _ hok x, script_entries_names]
  exact Or.inl hx

/-- The state `combine` starts the user-declaration loop in. -/
def init_state (P : List String) : VState :=
  ⟨P.foldl (fun v n => insertA v n .Visited) [], P⟩

theorem init_lookup (P : List String) (x : String) :
    lookupA (init_state P).visits x = if x ∈ P then some .Visited else none :=
  lookupA_foldl_insert P [] x

theorem inv_init {funcs : List (String × Func)} {P : List String}
    (hnodupP : P.Nodup) (hP : ∀ n ∈ P, containsA funcs n = true) :
    Inv funcs P (init_state P) := by
  refine ⟨⟨[], by simp [init_state]⟩, hnodupP, ?_, ?_, ?_⟩
  · intro x
    rw [init_lookup]
    by_cases hx : x ∈ P
    · simp [hx, init_state]
    · simp [hx, init_state]
  · intro x hx
    rw [init_lookup] at hx
    by_cases hxp : x ∈ P
    · exact hP x hxp
    · simp [hxp] at hx
  · intro x hx hp
    exact absurd hx hp

theorem anc_init (P : List String) (funcs : List (String × Func)) (d : String) :
    AncestorInv funcs (init_state P) d := by
  intro v hv
  rw [init_lookup] at hv
  by_cases hvp : v ∈ P
  · simp [hvp] at hv
  · simp [hvp] at hv

theorem uc_lt_fuel (funcs : List (String × Func)) (visits : List (String × Visited)) :
    unvisited_count funcs visits < funcs.length + 1 := by
  have h1 : unvisited_count funcs visits ≤ (funcs.map Prod.fst).length :=
    List.length_filter_le _ _
  rw [List.length_map] at h1
  omega

theorem transGen_rank {α : Type} {r : α → α → Prop} {g : α → Nat}
    (hg : ∀ a b, r a b → g b < g a) :
    ∀ {a b : α}, Relation.TransGen r a b → g b < g a := by
  intro a b h
  induction h with
  | single h1 => exact hg _ _ h1
  | tail _ h2 ih => exact lt_trans (hg _ _ h2) ih

/-- An edge of the merged graph both of whose endpoints are user
declarations. -/
def EdgeUser (p m : Script) (a b : String) : Prop :=
  EdgeS p m a b ∧ a ∈ m.decls.map Prod.fst ∧ b ∈ m.decls.map Prod.fst

end combine

/-- C6 (amended): for scripts with pairwise-distinct declaration names, all
referenced names declared, and an acyclic merged dependency graph,
`combine` succeeds; its order is the prelude's own declaration order (taken
verbatim and *not* re-checked) followed by exactly the user declarations,
and every *user* declaration's dependencies appear before it.  (The
counterexample shows prelude declarations' dependencies need not precede
them, which is what forces the restriction to user declarations.) -/
theorem c6_topological (p m : combine.Script)
    (hnodup : ((p.decls ++ m.decls).map Prod.fst).Nodup)
    (hclosed : combine.ClosedS p m)
    (hacyclic : ∀ n, ¬ Relation.TransGen (combine.EdgeS p m) n n) :
    ∃ prog, combine.combine p m = .ok prog ∧
      (∃ t, prog.order = p.decls.map Prod.fst ++ t ∧ t.Nodup ∧
        (∀ x, x ∈ t ↔ x ∈ m.decls.map Prod.fst)) ∧
      (∀ name fd, (name, fd) ∈ m.decls → ∀ d ∈ combine.ast_deps fd,
        d ∈ prog.order ∧ prog.order.indexOf d < prog.order.indexOf name) := by
  have hnodup2 : ((combine.all_decls p m).map Prod.fst).Nodup := by
    rw [combine.all_decls]; exact hnodup
  rw [List.map_append] at hnodup
  obtain ⟨hPn, hMn, hdisj⟩ := List.nodup_append.mp hnodup
  have hen : ((combine.script_entries p m).map (fun e => e.1.1)).Nodup := by
    rw [combine.script_entries_names]; exact hnodup2
  obtain ⟨funcs, hb⟩ := combine.build_funcs_ok_of_fresh (combine.script_entries p m) []
    hen (fun e _ => rfl)
  have hclosedF := combine.bridge_closed hb hclosed
  have hacycF : ∀ n, ¬ Relation.TransGen (combine.EdgeF funcs) n n := by
    intro n hc
    exact hacyclic n
      (Relation.TransGen.mono (fun a b hab => (combine.bridge_edge hb hnodup2 a b).mp hab) hc)
  have hPdecl : ∀ n ∈ p.decls.map Prod.fst, containsA funcs n = true := by
    intro n hn
    exact combine.member_names_contains hb n
      (by rw [combine.all_decls, List.map_append]; exact List.mem_append_left _ hn)
  have hMdecl : ∀ n ∈ m.decls.map Prod.fst, containsA funcs n = true := by
    intro n hn
    exact combine.member_names_contains hb n
      (by rw [combine.all_decls, List.map_append]; exact List.mem_append_right _ hn)
  have hinv0 : combine.Inv funcs (p.decls.map Prod.fst)
      (combine.init_state (p.decls.map Prod.fst)) := combine.inv_init hPn hPdecl
  obtain ⟨stF, hrun⟩ := combine.visit_list_complete funcs (funcs.length + 1)
    (m.decls.map Prod.fst) (combine.init_state (p.decls.map Prod.fst))
    hclosedF hacycF hMdecl
    (fun d _ => combine.anc_init _ funcs d)
    (combine.uc_lt_fuel funcs _)
  have hinvF := combine.visit_list_inv funcs (p.decls.map Prod.fst) (funcs.length + 1)
    (m.decls.map Prod.fst) _ stF hrun hinv0
  obtain ⟨_, _, _, hvisited, _⟩ := combine.visit_list_post funcs (funcs.length + 1)
    (m.decls.map Prod.fst) _ stF hrun
  -- the run is exactly what `combine` executes
  have hb2 : combine.build_funcs
      (p.decls.map (fun d => (d, true)) ++ m.decls.map (fun d => (d, false))) []
      = .ok funcs := hb
  have hrun2 : combine.visit_list funcs (funcs.length + 1) (m.decls.map (fun d => d.1))
      ⟨(p.decls.map (fun d => d.1)).foldl (fun v n => insertA v n .Visited) [],
        p.decls.map (fun d => d.1)⟩ = .ok stF := hrun
  refine ⟨⟨stF.order, funcs⟩, ?_, ?_, ?_⟩
  · simp only [combine.combine]
    rw [hb2]
    simp only [Bool.false_eq_true]
    rw [hrun2]
  · obtain ⟨t, ht⟩ := hinvF.order_shape
    have hton : (p.decls.map Prod.fst ++ t).Nodup := ht ▸ hinvF.order_nodup
    obtain ⟨_, htn, hdisj2⟩ := List.nodup_append.mp hton
    refine ⟨t, ht, htn, ?_⟩
    intro x
    constructor
    · intro hx
      have hxo : x ∈ stF.order := ht ▸ List.mem_append_right _ hx
      have hv := (hinvF.mem_order x).mp hxo
      have hc := hinvF.visited_decl x hv
      have hall := combine.funcs_names_sub hb x hc
      rw [combine.all_decls, List.map_append] at hall
      rcases List.mem_append.mp hall with h1 | h2
      · exact absurd hx (hdisj2 h1)
      · exact h2
    · intro hx
      have hv := hvisited x hx
      have hxo : x ∈ stF.order := (hinvF.mem_order x).mpr hv
      rw [ht] at hxo
      rcases List.mem_append.mp hxo with h1 | h2
      · exact absurd hx (hdisj h1)
      · exact h2
  · intro name fd hmem d hd
    have hname : name ∈ m.decls.map Prod.fst := List.mem_map.mpr ⟨(name, fd), hmem, rfl⟩
    have hv := hvisited name hname
    have hno : name ∈ stF.order := (hinvF.mem_order name).mpr hv
    have hnp : name ∉ p.decls.map Prod.fst := fun hc => hdisj hc hname
    obtain ⟨f, hfl, hdd⟩ := hinvF.topo name hno hnp
    have hlook : lookupA funcs name = some ⟨fd.args, fd.ret, fd.body, false⟩ :=
      combine.build_funcs_lookup _ _ _ hb name fd false
        (List.mem_append_right _ (List.mem_map.mpr ⟨(name, fd), hmem, rfl⟩))
    have hfeq : f = ⟨fd.args, fd.ret, fd.body, false⟩ := by
      have := hfl.symm.trans hlook
      exact Option.some.inj this
    have hd2 : d ∈ combine.func_deps f := by
      rw [hfeq, combine.func_deps_tag]
      exact hd
    obtain ⟨hdv, hdi⟩ := hdd d hd2
    exact ⟨(hinvF.mem_order d).mpr hdv, hdi⟩

/-- C7 (amended): for scripts with pairwise-distinct declaration names and
all referenced names declared, whose merged graph has a cycle lying
entirely within the *user* declarations, `combine` fails with
`Recursion(name)` for a name that lies on a cycle of the merged graph.
(The counterexample shows a cycle through prelude declarations — even one
reachable from a user declaration — is not detected, which forces the
restriction.) -/
theorem c7_recursion_on_user_cycle (p m : combine.Script)
    (hnodup : ((p.decls ++ m.decls).map Prod.fst).Nodup)
    (hclosed : combine.ClosedS p m)
    (hcycle : ∃ n, Relation.TransGen (combine.EdgeUser p m) n n) :
    ∃ name, combine.combine p m = .error (.Recursion name) ∧
      Relation.TransGen (combine.EdgeS p m) name name := by
  have hnodup2 : ((combine.all_decls p m).map Prod.fst).Nodup := by
    rw [combine.all_decls]; exact hnodup
  rw [List.map_append] at hnodup
  obtain ⟨hPn, hMn, hdisj⟩ := List.nodup_append.mp hnodup
  have hen : ((combine.script_entries p m).map (fun e => e.1.1)).Nodup := by
    rw [combine.script_entries_names]; exact hnodup2
  obtain ⟨funcs, hb⟩ := combine.build_funcs_ok_of_fresh (combine.script_entries p m) []
    hen (fun e _ => rfl)
  have hclosedF := combine.bridge_closed hb hclosed
  have hPdecl : ∀ n ∈ p.decls.map Prod.fst, containsA funcs n = true := by
    intro n hn
    exact combine.member_names_contains hb n
      (by rw [combine.all_decls, List.map_append]; exact List.mem_append_left _ hn)
  have hMdecl : ∀ n ∈ m.decls.map Prod.fst, containsA funcs n = true := by
    intro n hn
    exact combine.member_names_contains hb n
      (by rw [combine.all_decls, List.map_append]; exact List.mem_append_right _ hn)
  have hinv0 : combine.Inv funcs (p.decls.map Prod.fst)
      (combine.init_state (p.decls.map Prod.fst)) := combine.inv_init hPn hPdecl
  have hb2 : combine.build_funcs
      (p.decls.map (fun d => (d, true)) ++ m.decls.map (fun d => (d, false))) []
      = .ok funcs := hb
  rcases hrun : combine.visit_list funcs (funcs.length + 1)
      (m.decls.map Prod.fst) (combine.init_state (p.decls.map Prod.fst)) with e | stF
  · -- the run fails; the error must be Recursion on a cycle node
    obtain ⟨m2, he⟩ := combine.visit_list_err funcs _ _ _ e hrun hclosedF hMdecl
    subst he
    have hcyc2 := combine.visit_list_sound funcs (funcs.length + 1)
      (m.decls.map Prod.fst) _ m2 hrun
      (fun d _ => combine.anc_init _ funcs d) (combine.uc_lt_fuel funcs _)
    have hrun2 : combine.visit_list funcs (funcs.length + 1) (m.decls.map (fun d => d.1))
        ⟨(p.decls.map (fun d => d.1)).foldl (fun v n => insertA v n .Visited) [],
          p.decls.map (fun d => d.1)⟩ = .error (.Recursion m2) := hrun
    refine ⟨m2, ?_, Relation.TransGen.mono
      (fun a b hab => (combine.bridge_edge hb hnodup2 a b).mp hab) hcyc2⟩
    simp only [combine.combine]
    rw [hb2]
    simp only [Bool.false_eq_true]
    rw [hrun2]
  · -- a successful run would topologically order the user cycle: absurd
    exfalso
    have hinvF := combine.visit_list_inv funcs (p.decls.map Prod.fst) (funcs.length + 1)
      (m.decls.map Prod.fst) _ stF hrun hinv0
    obtain ⟨_, _, _, hvisited, _⟩ := combine.visit_list_post funcs (funcs.length + 1)
      (m.decls.map Prod.fst) _ stF hrun
    obtain ⟨n, hcyc⟩ := hcycle
    have hg : ∀ a b, combine.EdgeUser p m a b →
        stF.order.indexOf b < stF.order.indexOf a := by
      rintro a b ⟨⟨dd, hlk, hdep⟩, ha, _⟩
      have hv := hvisited a ha
      have hao : a ∈ stF.order := (hinvF.mem_order a).mpr hv
      have hanp : a ∉ p.decls.map Prod.fst := fun hc => hdisj hc ha
      obtain ⟨f, hfl, hdd2⟩ := hinvF.topo a hao hanp
      obtain ⟨tag, hment⟩ := combine.entry_of_mem_decls (lookupA_mem hlk)
      have hlook := combine.build_funcs_lookup _ _ _ hb a dd tag hment
      have hfeq : f = ⟨dd.args, dd.ret, dd.body, tag⟩ :=
        Option.some.inj (hfl.symm.trans hlook)
      have hdep2 : b ∈ combine.func_deps f := by
        rw [hfeq, combine.func_deps_tag]
        exact hdep
      exact (hdd2 b hdep2).2
    exact lt_irrefl _ (combine.transGen_rank hg hcyc)

/-- C9 (amended): the dependency collector records every `Var` occurrence
(argument-name references included) as a dependency on a top-level
declaration, so whenever some user declaration references one of its own
argument names and that name is not also a declared function name,
`combine` fails with some `CombineError` (the counterexample shows the
error need not be `NoSuchDecl` naming that argument: an earlier failure —
e.g. a recursion discovered first — can preempt it). -/
theorem c9_combine_fails_on_arg_reference (p m : combine.Script) (name : String)
    (fd : ast.Func) (x : String)
    (hmem : (name, fd) ∈ m.decls)
    (hargname : x ∈ fd.args.map Prod.fst)
    (hdep : x ∈ combine.ast_deps fd)
    (hnotdecl : x ∉ (p.decls ++ m.decls).map Prod.fst) :
    (combine.combine p m).toOption = none := by
  rcases hres : combine.combine p m with e | prog
  · rfl
  · exfalso
    simp only [combine.combine] at hres
    rcases hb : combine.build_funcs
        (p.decls.map (fun d => (d, true)) ++ m.decls.map (fun d => (d, false))) []
        with e2 | funcs
    · rw [hb] at hres
      exact absurd hres (by simp)
    · rw [hb] at hres
      simp only [Bool.false_eq_true] at hres
      rcases hrun : combine.visit_list funcs (funcs.length + 1)
          (m.decls.map (fun d => d.1))
          ⟨(p.decls.map (fun d => d.1)).foldl (fun v n => insertA v n .Visited) [],
            p.decls.map (fun d => d.1)⟩ with e2 | stF
      · rw [hrun] at hres
        exact absurd hres (by simp)
      · have hb2 : combine.build_funcs (combine.script_entries p m) [] = .ok funcs := hb
        have hnodupE := (combine.build_funcs_nodup _ _ _ hb2).1
        rw [combine.script_entries_names] at hnodupE
        have hnodup : ((p.decls ++ m.decls).map Prod.fst).Nodup := by
          rw [← combine.all_decls]; exact hnodupE
        rw [List.map_append] at hnodup
        obtain ⟨hPn, hMn, hdisj⟩ := List.nodup_append.mp hnodup
        have hPdecl : ∀ n ∈ p.decls.map Prod.fst, containsA funcs n = true := by
          intro n hn
          exact combine.member_names_contains hb2 n
            (by rw [combine.all_decls, List.map_append]; exact List.mem_append_left _ hn)
        have hinv0 : combine.Inv funcs (p.decls.map Prod.fst)
            (combine.init_state (p.decls.map Prod.fst)) := combine.inv_init hPn hPdecl
        have hrun2 : combine.visit_list funcs (funcs.length + 1)
            (m.decls.map Prod.fst) (combine.init_state (p.decls.map Prod.fst))
            = .ok stF := hrun
        have hinvF := combine.visit_list_inv funcs (p.decls.map Prod.fst)
          (funcs.length + 1) (m.decls.map Prod.fst) _ stF hrun2 hinv0
        obtain ⟨_, _, _, hvisited, _⟩ := combine.visit_list_post funcs (funcs.length + 1)
          (m.decls.map Prod.fst) _ stF hrun2
        have hname : name ∈ m.decls.map Prod.fst :=
          List.mem_map.mpr ⟨(name, fd), hmem, rfl⟩
        have hv := hvisited name hname
        have hno : name ∈ stF.order := (hinvF.mem_order name).mpr hv
        have hnp : name ∉ p.decls.map Prod.fst := fun hc => hdisj hc hname
        obtain ⟨f, hfl, hdd⟩ := hinvF.topo name hno hnp
        have hlook : lookupA funcs name = some ⟨fd.args, fd.ret, fd.body, false⟩ :=
          combine.build_funcs_lookup _ _ _ hb2 name fd false
            (List.mem_append_right _ (List.mem_map.mpr ⟨(name, fd), hmem, rfl⟩))
        have hfeq : f = ⟨fd.args, fd.ret, fd.body, false⟩ :=
          Option.some.inj (hfl.symm.trans hlook)
        have hd2 : x ∈ combine.func_deps f := by
          rw [hfeq, combine.func_deps_tag]
          exact hdep
        obtain ⟨hxv, _⟩ := hdd x hd2
        have hxc := hinvF.visited_decl x hxv
        have hxall := combine.funcs_names_sub hb2 x hxc
        rw [combine.all_decls] at hxall
        exact hnotdecl hxall

instance (p m : combine.Script) : Decidable (combine.ClosedS p m) :=
  inferInstanceAs (Decidable (∀ e ∈ combine.all_decls p m,
    ∀ d ∈ combine.ast_deps e.2, d ∈ (combine.all_decls p m).map Prod.fst))

/-- C6 counterexample prelude: `a` (declared first) depends on `b`. -/
def ex6_prelude : combine.Script :=
  ⟨[("a", ⟨[], .Var "b", .Int 0⟩), ("b", ⟨[], .Int 0, .Int 0⟩)]⟩

/-- C6 counterexample user script: an independent declaration `c`. -/
def ex6_user : combine.Script := ⟨[("c", ⟨[], .Int 0, .Int 0⟩)]⟩

theorem ex6_edge_char : ∀ a b, combine.EdgeS ex6_prelude ex6_user a b →
    a = "a" ∧ b = "b" := by
  rintro a b ⟨d, hlk, hdep⟩
  have hmem := lookupA_mem hlk
  simp [ex6_prelude, ex6_user, combine.all_decls] at hmem
  rcases hmem with ⟨ha, hd⟩ | ⟨ha, hd⟩ | ⟨ha, hd⟩ <;> subst ha <;> subst hd
  · refine ⟨rfl, ?_⟩
    rw [show combine.ast_deps ⟨[], .Var "b", .Int 0⟩ = ["b"] from rfl] at hdep
    simpa using hdep
  · rw [show combine.ast_deps ⟨[], .Int 0, .Int 0⟩ = [] from rfl] at hdep
    simp at hdep
  · rw [show combine.ast_deps ⟨[], .Int 0, .Int 0⟩ = [] from rfl] at hdep
    simp at hdep

/-- C6: counterexample — the scripts satisfy all the claim's hypotheses
(distinct names, every referenced name declared, acyclic merged graph),
`combine` succeeds with order `[a, b, c]`, yet declaration `a`'s dependency
`b` appears *after* `a`: the prelude's verbatim order is trusted unchecked,
so the claimed "every declaration's dependencies appear before it" fails. -/
theorem c6_counterexample :
    ((ex6_prelude.decls ++ ex6_user.decls).map Prod.fst).Nodup ∧
    combine.ClosedS ex6_prelude ex6_user ∧
    (∀ n, ¬ Relation.TransGen (combine.EdgeS ex6_prelude ex6_user) n n) ∧
    (combine.combine ex6_prelude ex6_user).toOption.map combine.Program.order
      = some ["a", "b", "c"] ∧
    "b" ∈ combine.ast_deps ⟨[], .Var "b", .Int 0⟩ ∧
    (["a", "b", "c"] : List String).indexOf "a"
      < (["a", "b", "c"] : List String).indexOf "b" := by
  refine ⟨by decide, by decide, ?_, ?_, by decide, by decide⟩
  · have hg : ∀ a b, combine.EdgeS ex6_prelude ex6_user a b →
        (fun s => if s = "a" then 1 else 0) b < (fun s => if s = "a" then 1 else 0) a := by
      intro a b he
      obtain ⟨ha, hb⟩ := ex6_edge_char a b he
      subst ha
      subst hb
      decide
    intro n hc
    exact lt_irrefl _ (combine.transGen_rank hg hc)
  · simp [ex6_prelude, ex6_user, combine.combine, combine.build_funcs, combine.visit_list,
      combine.visit_for_ordering, combine.get_dependencies, combine.func_deps,
      combine.add_dependencies, combine.add_dependencies_list, lookupA, insertA, containsA,
      Except.toOption]

/-- C6 witness prelude: a single independent declaration `p0`. -/
def ex6w_prelude : combine.Script := ⟨[("p0", ⟨[], .Int 0, .Int 0⟩)]⟩

/-- C6 witness user script: `u0` depends on the prelude's `p0`. -/
def ex6w_user : combine.Script := ⟨[("u0", ⟨[], .Int 0, .Var "p0"⟩)]⟩

theorem ex6w_edge_char : ∀ a b, combine.EdgeS ex6w_prelude ex6w_user a b →
    a = "u0" ∧ b = "p0" := by
  rintro a b ⟨d, hlk, hdep⟩
  have hmem := lookupA_mem hlk
  simp [ex6w_prelude, ex6w_user, combine.all_decls] at hmem
  rcases hmem with ⟨ha, hd⟩ | ⟨ha, hd⟩ <;> subst ha <;> subst hd
  · rw [show combine.ast_deps ⟨[], .Int 0, .Int 0⟩ = [] from rfl] at hdep
    simp at hdep
  · refine ⟨rfl, ?_⟩
    rw [show combine.ast_deps ⟨[], .Int 0, .Var "p0"⟩ = ["p0"] from rfl] at hdep
    simpa using hdep

/-- C6: witness — `c6_topological` applied to a concrete acyclic,
closed, duplicate-free pair of scripts. -/
theorem c6_witness :
    (combine.combine ex6w_prelude ex6w_user).toOption.isSome = true := by
  have hacyc : ∀ n, ¬ Relation.TransGen (combine.EdgeS ex6w_prelude ex6w_user) n n := by
    have hg : ∀ a b, combine.EdgeS ex6w_prelude ex6w_user a b →
        (fun s => if s = "u0" then 1 else 0) b < (fun s => if s = "u0" then 1 else 0) a := by
      intro a b he
      obtain ⟨ha, hb⟩ := ex6w_edge_char a b he
      subst ha
      subst hb
      decide
    intro n hc
    exact lt_irrefl _ (combine.transGen_rank hg hc)
  obtain ⟨prog, hok, _, _⟩ := c6_topological ex6w_prelude ex6w_user
    (by decide) (by decide) hacyc
  rw [hok]
  rfl

/-- C7 counterexample prelude: a two-declaration cycle `p <-> q`. -/
def ex7_prelude : combine.Script :=
  ⟨[("p", ⟨[], .Int 0, .Var "q"⟩), ("q", ⟨[], .Int 0, .Var "p"⟩)]⟩

/-- C7 counterexample user script: `u` references the prelude's `p`. -/
def ex7_user : combine.Script := ⟨[("u", ⟨[], .Int 0, .Var "p"⟩)]⟩

/-- C7: counterexample — the merged graph has a cycle (`p <-> q`, both
prelude declarations) reachable from the user declaration `u`, every name
is declared and names are distinct, yet `combine` *succeeds*: prelude
names are pre-marked visited, so a cycle through the prelude is never
traversed and no `Recursion` error is raised. -/
theorem c7_counterexample :
    Relation.TransGen (combine.EdgeS ex7_prelude ex7_user) "p" "p" ∧
    combine.EdgeS ex7_prelude ex7_user "u" "p" ∧
    ("u", (⟨[], .Int 0, .Var "p"⟩ : ast.Func)) ∈ ex7_user.decls ∧
    ((ex7_prelude.decls ++ ex7_user.decls).map Prod.fst).Nodup ∧
    combine.ClosedS ex7_prelude ex7_user ∧
    (combine.combine ex7_prelude ex7_user).toOption.isSome = true := by
  have hpq : combine.EdgeS ex7_prelude ex7_user "p" "q" :=
    ⟨⟨[], .Int 0, .Var "q"⟩, rfl, by decide⟩
  have hqp : combine.EdgeS ex7_prelude ex7_user "q" "p" :=
    ⟨⟨[], .Int 0, .Var "p"⟩, rfl, by decide⟩
  refine ⟨(Relation.TransGen.single hpq).tail hqp,
    ⟨⟨[], .Int 0, .Var "p"⟩, rfl, by decide⟩, by decide, by decide, by decide, ?_⟩
  simp [ex7_prelude, ex7_user, combine.combine, combine.build_funcs, combine.visit_list,
    combine.visit_for_ordering, combine.get_dependencies, combine.func_deps,
    combine.add_dependencies, combine.add_dependencies_list, lookupA, insertA, containsA,
    Except.toOption]

/-- C7 witness prelude: empty. -/
def ex7w_prelude : combine.Script := ⟨[]⟩

/-- C7 witness user script: the mutual recursion `a -> b -> a`. -/
def ex7w_user : combine.Script :=
  ⟨[("a", ⟨[], .Int 0, .Var "b"⟩), ("b", ⟨[], .Int 0, .Var "a"⟩)]⟩

/-- C7: witness — `c7_recursion_on_user_cycle` applied to the concrete
user-level cycle `a -> b -> a`. -/
theorem c7_witness :
    (combine.combine ex7w_prelude ex7w_user).toOption = none := by
  have hab : combine.EdgeUser ex7w_prelude ex7w_user "a" "b" :=
    ⟨⟨⟨[], .Int 0, .Var "b"⟩, rfl, by decide⟩, by decide, by decide⟩
  have hba : combine.EdgeUser ex7w_prelude ex7w_user "b" "a" :=
    ⟨⟨⟨[], .Int 0, .Var "a"⟩, rfl, by decide⟩, by decide, by decide⟩
  obtain ⟨nm, hcomb, _⟩ := c7_recursion_on_user_cycle ex7w_prelude ex7w_user
    (by decide) (by decide) ⟨"a", (Relation.TransGen.single hab).tail hba⟩
  rw [hcomb]
  rfl

/-- C9 counterexample prelude: a declaration named `uint`. -/
def ex9_prelude : combine.Script := ⟨[("uint", ⟨[], .Int 0, .Int 0⟩)]⟩

/-- C9 counterexample user script: a self-recursive `a`, then
`f(x:uint):uint = x`, which references its own argument `x`. -/
def ex9_user : combine.Script :=
  ⟨[("a", ⟨[], .Var "uint", .Var "a"⟩),
    ("f", ⟨[("x", .Var "uint")], .Var "uint", .Var "x"⟩)]⟩

/-- C9: counterexample — the user declaration `f` references its own
argument `x` (not a declared name), yet `combine` does not fail with
`NoSuchDecl("x")`: the earlier self-recursive declaration `a` makes it
fail with `Recursion("a")` first. -/
theorem c9_counterexample :
    ("f", (⟨[("x", .Var "uint")], .Var "uint", .Var "x"⟩ : ast.Func)) ∈ ex9_user.decls ∧
    "x" ∈ ([("x", ast.Expr.Var "uint")].map Prod.fst) ∧
    "x" ∈ combine.ast_deps ⟨[("x", .Var "uint")], .Var "uint", .Var "x"⟩ ∧
    "x" ∉ ((ex9_prelude.decls ++ ex9_user.decls).map Prod.fst) ∧
    combine.combine ex9_prelude ex9_user = .error (.Recursion "a") := by
  refine ⟨by decide, by decide, by decide, by decide, ?_⟩
  simp [ex9_prelude, ex9_user, combine.combine, combine.build_funcs, combine.visit_list,
    combine.visit_for_ordering, combine.get_dependencies, combine.func_deps,
    combine.add_dependencies, combine.add_dependencies_list, lookupA, insertA, containsA]

/-- C9 witness prelude: a declaration named `uint`. -/
def ex9w_prelude : combine.Script := ⟨[("uint", ⟨[], .Int 0, .Int 0⟩)]⟩

/-- C9 witness user script: only `f(x:uint):uint = x`. -/
def ex9w_user : combine.Script :=
  ⟨[("f", ⟨[("x", .Var "uint")], .Var "uint", .Var "x"⟩)]⟩

/-- C9: witness — `c9_combine_fails_on_arg_reference` applied to the
concrete declaration `f(x:uint):uint = x`. -/
theorem c9_witness :
    (combine.combine ex9w_prelude ex9w_user).toOption = none :=
  c9_combine_fails_on_arg_reference ex9w_prelude ex9w_user "f"
    ⟨[("x", .Var "uint")], .Var "uint", .Var "x"⟩ "x"
    (by decide) (by decide) (by decide) (by decide)
